import Mathlib

/-!
Verification of go-dispatch-proxy: weighted round-robin scheduler and failover
dispatcher.

A shallow embedding of `get_load_balancer`, `handle_tunnel_connection` and
`pipe_connections` from `main.go`, followed by the properties proved about them.

Modelling conventions.

* The package-level variables `lb_index` and `lb_list` become the record `Globals`,
  threaded explicitly through every call; `mutex` makes each `get_load_balancer`
  call atomic, so a call is one function application on `Globals`.
* Go `int` is 64-bit two's complement: the only arithmetic on a counter that can
  overflow, `current_connections += 1`, wraps through `wrapInt`.
* `lb_index` starts at `0` and is only ever incremented or reset to `0`, so it is a
  natural number; indexing `lb_list` out of range is the outcome `fault`.
* A `*big.Int` is its integer value (`none` for a nil pointer); `Bit` is `Int.testBit`.
* Loops that the source leaves unbounded (`for { ... }`, `goto retry`) take a fuel
  argument; running out of fuel is the outcome `diverge`.
-/

namespace DispatchProxy

/-! ## Data model -/

/-- Go `int` arithmetic on a 64-bit target: the two's-complement wrap of a result. -/
def wrapInt (x : Int) : Int := (x + 2 ^ 63) % 2 ^ 64 - 2 ^ 63

/-- Record `load_balancer` of `main.go`. -/
structure load_balancer where
  address : String
  iface : String
  contention_ratio : Int
  current_connections : Int
  deriving DecidableEq, Repr

/-- Package-level mutable state: `lb_index` and `lb_list`. -/
structure Globals where
  lb_index : Nat
  lb_list : List load_balancer
  deriving DecidableEq, Repr

/-- One element of the variadic `params ...interface{}`: the type switch of
`get_load_balancer` distinguishes `int`, `*big.Int` and everything else. -/
inductive Param where
  | int (v : Int)
  | bigInt (v : Option Int)
  | other
  deriving DecidableEq, Repr

/-- Result of running a piece of the program: a value, a run-time panic
(`fault`), or a loop that used up its fuel (`diverge`). -/
inductive Outcome (α : Type) where
  | ok (a : α)
  | fault
  | diverge
  deriving DecidableEq, Repr

/-- Return value `(*load_balancer, int)` of `get_load_balancer`: the pointer
`&lb_list[lb]` is represented by the slot `lb` it points to. -/
structure Selection where
  lb : Nat
  ilb : Nat
  deriving DecidableEq, Repr

/-! ## `get_load_balancer` -/

/-- The loop `for _, p := range params { switch v := p.(type) ... }`, started
with `seed = -1` and `_bitset = nil`. -/
def scan_params : List Param → Int × Option Int → Int × Option Int
  | [], acc => acc
  | Param.int v :: ps, (_, b) => scan_params ps (v, b)
  | Param.bigInt v :: ps, (s, _) => scan_params ps (s, v)
  | Param.other :: ps, acc => scan_params ps acc

/-- Lines 37-53: the value of `_bitset` after argument decoding. An absent or
out-of-range seed, or an absent bitset, turns the call into a plain one. -/
def decode_params (params : List Param) (len : Nat) : Option Int :=
  if params.length > 0 then
    let r := scan_params params (-1, none)
    if r.1 < 0 ∨ r.1 ≥ (len : Int) ∨ r.2 = none then none else r.2
  else none

/-- Lines 57-69: the skip loop. `fuel` bounds the number of skip steps (passes
through the `if` branch); the `break` itself costs no fuel. -/
def skip_loop (bitset : Int) : Nat → Globals → Outcome Globals
  | fuel, g =>
    if bitset.testBit g.lb_index then
      match g.lb_list[g.lb_index]? with
      | none => Outcome.fault
      | some lb =>
        match fuel with
        | 0 => Outcome.diverge
        | fuel' + 1 =>
          let lb_list := g.lb_list.set g.lb_index { lb with current_connections := 0 }
          let lb_index := g.lb_index + 1
          skip_loop bitset fuel'
            { lb_index := if lb_index = lb_list.length then 0 else lb_index,
              lb_list := lb_list }
    else Outcome.ok g

/-- Lines 72-85: the grant step. -/
def grant (g : Globals) : Outcome (Selection × Globals) :=
  match g.lb_list[g.lb_index]? with
  | none => Outcome.fault
  | some lb =>
    let cc := wrapInt (lb.current_connections + 1)
    let ilb := g.lb_index
    if cc = lb.contention_ratio then
      let lb_list := g.lb_list.set ilb { lb with current_connections := 0 }
      let lb_index := g.lb_index + 1
      Outcome.ok (⟨ilb, ilb⟩,
        { lb_index := if lb_index = lb_list.length then 0 else lb_index,
          lb_list := lb_list })
    else
      Outcome.ok (⟨ilb, ilb⟩,
        { lb_index := g.lb_index,
          lb_list := g.lb_list.set ilb { lb with current_connections := cc } })

/-- Function `get_load_balancer(params ...interface{})`. -/
def get_load_balancer (fuel : Nat) (params : List Param) (g : Globals) :
    Outcome (Selection × Globals) :=
  match decode_params params g.lb_list.length with
  | some bitset =>
    match skip_loop bitset fuel g with
    | Outcome.ok g' => grant g'
    | Outcome.fault => Outcome.fault
    | Outcome.diverge => Outcome.diverge
  | none => grant g

/-- A run of `k` consecutive `get_load_balancer()` calls without arguments:
the indices returned, in order, and the final state. -/
def run_selects : Nat → Globals → Outcome (List Nat × Globals)
  | 0, g => Outcome.ok ([], g)
  | k + 1, g =>
    match get_load_balancer 0 [] g with
    | Outcome.ok (sel, g') =>
      match run_selects k g' with
      | Outcome.ok (is, g'') => Outcome.ok (sel.ilb :: is, g'')
      | Outcome.fault => Outcome.fault
      | Outcome.diverge => Outcome.diverge
    | Outcome.fault => Outcome.fault
    | Outcome.diverge => Outcome.diverge

/-- A backend with the given weight and counter. -/
def mkLb (w u : Int) : load_balancer :=
  { address := "", iface := "", contention_ratio := w, current_connections := u }

/-- The cursor names a backend of the pool (so the pool is non-empty). -/
def InRange (g : Globals) : Prop := g.lb_index < g.lb_list.length

instance (g : Globals) : Decidable (InRange g) := by unfold InRange; infer_instance

/-! ## `handle_tunnel_connection` -/

/-- Observable steps of one `handle_tunnel_connection` call, in program order. -/
inductive Event where
  /-- A call `get_load_balancer(params...)` that returned `sel`. -/
  | select (params : List Param) (sel : Selection)
  /-- A call `net.DialTCP` to the address of `lb_list[lb]`, and whether it succeeded. -/
  | dial (lb : Nat) (success : Bool)
  /-- The call `conn.Close()` of line 145. -/
  | close_conn
  /-- The call `pipe_connections(conn, remote_conn)` of line 150. -/
  | pipe (lb : Nat)
  deriving DecidableEq, Repr

/-- Lines 119-150, from the label `retry` on. `dial k` is the outcome of the `k`-th
dial attempt of this connection; `env k` is what the other connections do to the pool
between this connection's `k`-th dial and its next `get_load_balancer` call; `fuel`
bounds the number of `goto retry` jumps. The `*big.Int` built here only ever has bits
set, so its value is a natural number. -/
def retry_loop (dial : Nat → Bool) (env : Nat → Globals → Globals) (skipFuel : Nat) :
    Nat → Nat → Selection → Option Nat → Bool → Globals → Outcome (List Event × Globals)
  | fuel, k, sel, bitset, complete, g =>
    if dial k then
      Outcome.ok ([Event.dial sel.lb true, Event.pipe sel.lb], g)
    else
      let bitset1 : Option Nat := if !complete && bitset.isNone then some 0 else bitset
      if !complete then
        match bitset1 with
        | none => Outcome.fault
        | some b =>
          let b' := b ||| (1 <<< sel.ilb)
          let mask := (1 <<< g.lb_list.length) - 1
          let complete' := (b' &&& mask) == mask
          if !complete' then
            match fuel with
            | 0 => Outcome.diverge
            | fuel' + 1 =>
              let params := [Param.int (sel.ilb : Int), Param.bigInt (some (b' : Int))]
              match get_load_balancer skipFuel params (env k g) with
              | Outcome.ok (sel', g') =>
                match retry_loop dial env skipFuel fuel' (k + 1) sel' (some b') false g' with
                | Outcome.ok (evs, g'') =>
                  Outcome.ok (Event.dial sel.lb false :: Event.select params sel' :: evs, g'')
                | Outcome.fault => Outcome.fault
                | Outcome.diverge => Outcome.diverge
              | Outcome.fault => Outcome.fault
              | Outcome.diverge => Outcome.diverge
          else Outcome.ok ([Event.dial sel.lb false, Event.close_conn], g)
      else Outcome.ok ([Event.dial sel.lb false, Event.close_conn], g)

/-- Function `handle_tunnel_connection(conn)`. -/
def handle_tunnel_connection (dial : Nat → Bool) (env : Nat → Globals → Globals)
    (retryFuel skipFuel : Nat) (g : Globals) : Outcome (List Event × Globals) :=
  match get_load_balancer skipFuel [] g with
  | Outcome.ok (sel, g') =>
    match retry_loop dial env skipFuel retryFuel 0 sel none
        (decide (1 = g'.lb_list.length)) g' with
    | Outcome.ok (evs, g'') => Outcome.ok (Event.select [] sel :: evs, g'')
    | Outcome.fault => Outcome.fault
    | Outcome.diverge => Outcome.diverge
  | Outcome.fault => Outcome.fault
  | Outcome.diverge => Outcome.diverge

/-- The slots dialed, in order. -/
def dialed : List Event → List Nat
  | [] => []
  | Event.dial lb _ :: es => lb :: dialed es
  | _ :: es => dialed es

/-- The `get_load_balancer` calls made, in order: arguments and returned index. -/
def selects : List Event → List (List Param × Nat)
  | [] => []
  | Event.select params sel :: es => (params, sel.ilb) :: selects es
  | _ :: es => selects es

/-- The interference of other connections keeps the pool's length and a valid cursor. -/
def EnvOk (env : Nat → Globals → Globals) : Prop :=
  ∀ (k : Nat) (g : Globals),
    (env k g).lb_list.length = g.lb_list.length ∧ (InRange g → InRange (env k g))

/-! ## `pipe_connections` -/

/-- Statements occurring in the goroutine bodies of `pipe_connections`. -/
inductive Stmt (C : Type) where
  /-- The statement `defer c.Close()`. -/
  | defer_close (c : C)
  /-- The statement `_, err := io.Copy(dst, src)`. -/
  | copy (dst src : C)
  /-- The statement `if err != nil { return }`. -/
  | return_if_err

/-- What a goroutine does to the connections. -/
inductive Action (C : Type) where
  | copy (dst src : C)
  | close (c : C)
  deriving DecidableEq, Repr

/-- Run a goroutine body. `err` tells whether `io.Copy` ended with an error rather
than a clean EOF; `deferred` is the stack of deferred calls, most recent first, which
run when the function returns, by `return` or by reaching its end. -/
def run_body {C : Type} : List (Stmt C) → Bool → List C → List (Action C)
  | [], _, deferred => deferred.map Action.close
  | Stmt.defer_close c :: rest, err, deferred => run_body rest err (c :: deferred)
  | Stmt.copy dst src :: rest, err, deferred =>
    Action.copy dst src :: run_body rest err deferred
  | Stmt.return_if_err :: rest, err, deferred =>
    if err then deferred.map Action.close else run_body rest err deferred

/-- Statements of `pipe_connections` itself. -/
inductive TopStmt (C : Type) where
  /-- The statement `go func() { body }()`. -/
  | go (body : List (Stmt C))
  /-- A direct call `c.Close()`. -/
  | close (c : C)

/-- Function `pipe_connections(local_conn, remote_conn)`. -/
def pipe_connections {C : Type} (local_conn remote_conn : C) : List (TopStmt C) :=
  [ TopStmt.go
      [ Stmt.defer_close remote_conn,
        Stmt.defer_close local_conn,
        Stmt.copy remote_conn local_conn,
        Stmt.return_if_err ],
    TopStmt.go
      [ Stmt.defer_close remote_conn,
        Stmt.defer_close local_conn,
        Stmt.copy local_conn remote_conn,
        Stmt.return_if_err ] ]

/-- Connections closed by `pipe_connections` itself, outside the goroutines. -/
def closed_directly {C : Type} : List (TopStmt C) → List C
  | [] => []
  | TopStmt.go _ :: rest => closed_directly rest
  | TopStmt.close c :: rest => c :: closed_directly rest

/-- Goroutines started, in order. -/
def started {C : Type} : List (TopStmt C) → List (List (Stmt C))
  | [] => []
  | TopStmt.go body :: rest => body :: started rest
  | TopStmt.close _ :: rest => started rest

/-! ## Auxiliary definitions used in the statements -/

/-- Successor of a cursor position in a pool of `n` backends:
`lb_index += 1; if lb_index == len(lb_list) { lb_index = 0 }`. -/
def next_index (n c : Nat) : Nat := if c + 1 = n then 0 else c + 1

/-- The list `l` with the counter of slot `c` replaced by `u`. -/
def setCC (l : List load_balancer) (c : Nat) (u : Int) : List load_balancer :=
  match l[c]? with
  | some lb => l.set c { lb with current_connections := u }
  | none => l

/-- Every weight is positive and is a Go `int`. -/
def ValidWeights (l : List load_balancer) : Prop :=
  ∀ lb ∈ l, 0 < lb.contention_ratio ∧ lb.contention_ratio < 2 ^ 63

instance (l : List load_balancer) : Decidable (ValidWeights l) := by
  unfold ValidWeights; infer_instance

/-- Every backend satisfies `0 <= used < weight`. -/
def CountersOk (l : List load_balancer) : Prop :=
  ∀ lb ∈ l, 0 ≤ lb.current_connections ∧ lb.current_connections < lb.contention_ratio

instance (l : List load_balancer) : Decidable (CountersOk l) := by
  unfold CountersOk; infer_instance

/-- Every used counter is `0`. -/
def AllZero (l : List load_balancer) : Prop :=
  ∀ lb ∈ l, lb.current_connections = 0

instance (l : List load_balancer) : Decidable (AllZero l) := by
  unfold AllZero; infer_instance

/-- Weight of the backend at index `i`, as a number of grants (`0` outside the pool). -/
def weightAt (l : List load_balancer) (i : Nat) : Nat :=
  match l[i]? with
  | some lb => lb.contention_ratio.toNat
  | none => 0

/-- Sum of all weights of the pool. -/
def total_weight (l : List load_balancer) : Int :=
  (l.map (fun lb => lb.contention_ratio)).sum

/-- Every backend other than the one at the cursor has used counter `0`. -/
def OthersZero (g : Globals) : Prop :=
  ∀ (i : Nat) (lb : load_balancer), i ≠ g.lb_index → g.lb_list[i]? = some lb →
    lb.current_connections = 0

/-- States reachable from `g0` by any finite sequence of `get_load_balancer`
calls that return, whatever their arguments. -/
inductive Reachable (g0 : Globals) : Globals → Prop where
  | init : Reachable g0 g0
  | call (g g' : Globals) (fuel : Nat) (params : List Param) (sel : Selection) :
      Reachable g0 g → get_load_balancer fuel params g = Outcome.ok (sel, g') →
      Reachable g0 g'

/-- Number of pool indices not yet in the trial set `b`. -/
def freeCount (b n : Nat) : Nat :=
  ((Finset.range n).filter (fun j => b.testBit j = false)).card

/-! ## Basic facts -/

theorem wrapInt_of_range (x : Int) (h1 : -(2 ^ 63) ≤ x) (h2 : x < 2 ^ 63) : wrapInt x = x := by
  unfold wrapInt
  omega

theorem setCC_length (l : List load_balancer) (c : Nat) (u : Int) :
    (setCC l c u).length = l.length := by
  unfold setCC
  split <;> simp

theorem setCC_getElem?_self (l : List load_balancer) (c : Nat) (u : Int) (lb : load_balancer)
    (h : l[c]? = some lb) :
    (setCC l c u)[c]? = some { lb with current_connections := u } := by
  have hc : c < l.length := by
    rcases List.getElem?_eq_some_iff.mp h with ⟨hc, _⟩
    exact hc
  unfold setCC
  rw [h]
  simp [List.getElem?_set, hc]

theorem setCC_set (l : List load_balancer) (c : Nat) (u v : Int) (lb : load_balancer)
    (h : l[c]? = some lb) :
    (setCC l c u).set c { lb with current_connections := v } = setCC l c v := by
  unfold setCC
  rw [h]
  simp [List.set_set]

theorem setCC_self (l : List load_balancer) (c : Nat) (lb : load_balancer)
    (h : l[c]? = some lb) : setCC l c lb.current_connections = l := by
  unfold setCC
  rw [h]
  apply List.ext_getElem?
  intro i
  by_cases hi : c = i
  · subst hi
    rw [List.getElem?_set]
    simp only [if_true]
    split
    · rw [h]
    · rename_i hlt
      rw [List.getElem?_eq_none (by omega)] at h
      exact absurd h (by simp)
  · rw [List.getElem?_set_ne hi]

theorem grant_setCC_lt (l : List load_balancer) (c : Nat) (u : Int) (lb : load_balancer)
    (h : l[c]? = some lb) (hw : wrapInt (u + 1) ≠ lb.contention_ratio) :
    grant ⟨c, setCC l c u⟩ = Outcome.ok (⟨c, c⟩, ⟨c, setCC l c (wrapInt (u + 1))⟩) := by
  unfold grant
  simp only [setCC_getElem?_self l c u lb h]
  rw [if_neg hw]
  have := setCC_set l c u (wrapInt (u + 1)) lb h
  simp only at this ⊢
  rw [this]

theorem grant_setCC_eq (l : List load_balancer) (c : Nat) (u : Int) (lb : load_balancer)
    (h : l[c]? = some lb) (hw : wrapInt (u + 1) = lb.contention_ratio) :
    grant ⟨c, setCC l c u⟩ =
      Outcome.ok (⟨c, c⟩, ⟨next_index l.length c, setCC l c 0⟩) := by
  unfold grant
  simp only [setCC_getElem?_self l c u lb h]
  rw [if_pos hw]
  have := setCC_set l c u 0 lb h
  simp only at this ⊢
  rw [this, setCC_length]
  rfl

theorem get_load_balancer_nil (fuel : Nat) (g : Globals) :
    get_load_balancer fuel [] g = grant g := by
  simp [get_load_balancer, decode_params]

theorem run_selects_succ_of_grant (k : Nat) (g g' g'' : Globals) (sel : Selection)
    (is : List Nat) (h1 : grant g = Outcome.ok (sel, g'))
    (h2 : run_selects k g' = Outcome.ok (is, g'')) :
    run_selects (k + 1) g = Outcome.ok (sel.ilb :: is, g'') := by
  rw [run_selects, get_load_balancer_nil, h1]
  simp only [h2]

theorem run_selects_add (a b : Nat) :
    ∀ (g g' g'' : Globals) (xs ys : List Nat),
      run_selects a g = Outcome.ok (xs, g') →
      run_selects b g' = Outcome.ok (ys, g'') →
      run_selects (a + b) g = Outcome.ok (xs ++ ys, g'') := by
  induction a with
  | zero =>
    intro g g' g'' xs ys h1 h2
    simp only [run_selects, Outcome.ok.injEq, Prod.mk.injEq] at h1
    obtain ⟨rfl, rfl⟩ := h1
    simpa using h2
  | succ a ih =>
    intro g g' g'' xs ys h1 h2
    rw [run_selects] at h1
    have hab : a + 1 + b = (a + b) + 1 := by omega
    rw [hab, run_selects]
    cases hg : get_load_balancer 0 [] g with
    | ok p =>
      obtain ⟨sel, g1⟩ := p
      rw [hg] at h1
      simp only at h1 ⊢
      cases hr : run_selects a g1 with
      | ok q =>
        obtain ⟨is, g2⟩ := q
        rw [hr] at h1
        simp only [Outcome.ok.injEq, Prod.mk.injEq] at h1
        obtain ⟨rfl, rfl⟩ := h1
        rw [ih g1 g2 g'' is ys hr h2]
        simp
      | fault => rw [hr] at h1; simp at h1
      | diverge => rw [hr] at h1; simp at h1
    | fault => rw [hg] at h1; simp at h1
    | diverge => rw [hg] at h1; simp at h1

theorem run_partial (l : List load_balancer) (c : Nat) (lb : load_balancer)
    (h : l[c]? = some lb) (hw : lb.contention_ratio < 2 ^ 63) :
    ∀ (k : Nat) (u : Int), 0 ≤ u → u + k < lb.contention_ratio →
      run_selects k ⟨c, setCC l c u⟩ =
        Outcome.ok (List.replicate k c, ⟨c, setCC l c (u + k)⟩) := by
  intro k
  induction k with
  | zero => intro u _ _; simp [run_selects]
  | succ k ih =>
    intro u hu hlt
    push_cast at hlt
    have hwrap : wrapInt (u + 1) = u + 1 := wrapInt_of_range _ (by omega) (by omega)
    have hstep := grant_setCC_lt l c u lb h (by rw [hwrap]; omega)
    rw [hwrap] at hstep
    have hrest := ih (u + 1) (by omega) (by omega)
    rw [run_selects_succ_of_grant k _ _ _ _ _ hstep hrest]
    have : u + 1 + (k : Int) = u + ((k + 1 : Nat) : Int) := by push_cast; ring
    rw [this]
    rfl

theorem run_block (l : List load_balancer) (c : Nat) (lb : load_balancer)
    (h : l[c]? = some lb) (hw : lb.contention_ratio < 2 ^ 63) (u : Int) (hu : 0 ≤ u)
    (hlt : u < lb.contention_ratio) :
    run_selects (lb.contention_ratio - u).toNat ⟨c, setCC l c u⟩ =
      Outcome.ok (List.replicate (lb.contention_ratio - u).toNat c,
        ⟨next_index l.length c, setCC l c 0⟩) := by
  obtain ⟨k, hk⟩ : ∃ k : Nat, (lb.contention_ratio - u).toNat = k + 1 :=
    ⟨(lb.contention_ratio - u).toNat - 1, by omega⟩
  have hkw : u + (k : Int) + 1 = lb.contention_ratio := by omega
  have h1 := run_partial l c lb h hw k u hu (by omega)
  have hwrap : wrapInt (u + k + 1) = u + k + 1 := wrapInt_of_range _ (by omega) (by omega)
  have hstep := grant_setCC_eq l c (u + k) lb h (by rw [hwrap]; exact hkw)
  have h2 : run_selects 1 ⟨c, setCC l c (u + k)⟩ =
      Outcome.ok ([c], ⟨next_index l.length c, setCC l c 0⟩) :=
    run_selects_succ_of_grant 0 _ _ _ _ [] hstep (by simp [run_selects])
  rw [hk, run_selects_add k 1 _ _ _ _ _ h1 h2, List.replicate_succ']

theorem next_index_mod (n x : Nat) (hn : 0 < n) :
    next_index n (x % n) = (x + 1) % n := by
  unfold next_index
  have hx : x % n < n := Nat.mod_lt _ hn
  rw [Nat.add_mod x 1 n]
  by_cases h1 : n = 1
  · subst h1
    simp [Nat.mod_one]
  · have h1n : 1 % n = 1 := Nat.mod_eq_of_lt (by omega)
    rw [h1n]
    split
    · rename_i heq
      rw [heq, Nat.mod_self]
    · rename_i hne
      exact (Nat.mod_eq_of_lt (show x % n + 1 < n by omega)).symm

theorem run_cycle (l : List load_balancer) (hz : AllZero l) (hv : ValidWeights l)
    (hn : 0 < l.length) (c : Nat) :
    ∀ m : Nat,
      run_selects ((List.range m).map (fun j => weightAt l ((c + j) % l.length))).sum
          ⟨c % l.length, l⟩ =
        Outcome.ok ((List.range m).flatMap (fun j =>
            List.replicate (weightAt l ((c + j) % l.length)) ((c + j) % l.length)),
          ⟨(c + m) % l.length, l⟩) := by
  intro m
  induction m with
  | zero => simp [run_selects]
  | succ m ih =>
    rw [List.range_succ, List.map_append, List.sum_append, List.flatMap_append]
    simp only [List.map_cons, List.map_nil, List.sum_cons, List.sum_nil, Nat.add_zero,
      List.flatMap_cons, List.flatMap_nil, List.append_nil]
    have hx : (c + m) % l.length < l.length := Nat.mod_lt _ hn
    obtain ⟨lb, hlb⟩ : ∃ lb, l[(c + m) % l.length]? = some lb :=
      ⟨l[(c + m) % l.length], List.getElem?_eq_getElem hx⟩
    have hmem : lb ∈ l := List.getElem?_mem hlb
    have hcc : lb.current_connections = 0 := hz lb hmem
    have hself : setCC l ((c + m) % l.length) 0 = l := by
      have := setCC_self l _ lb hlb
      rwa [hcc] at this
    have hb := run_block l _ lb hlb (hv lb hmem).2 0 (le_refl _) (hv lb hmem).1
    rw [hself, next_index_mod _ _ hn] at hb
    have hwt : weightAt l ((c + m) % l.length) = (lb.contention_ratio - 0).toNat := by
      simp [weightAt, hlb]
    rw [hwt]
    exact run_selects_add _ _ _ _ _ _ _ ih hb

/-! ### One full cycle visits every backend once -/

theorem map_rot_range (n c : Nat) :
    (List.range n).map (fun j => (c + j) % n) = (List.range n).rotate c := by
  apply List.ext_getElem
  · simp
  · intro k h1 h2
    simp only [List.length_map, List.length_range] at h1
    simp [List.getElem_rotate, Nat.add_comm]

theorem rot_range_perm (n c : Nat) :
    ((List.range n).map (fun j => (c + j) % n)).Perm (List.range n) := by
  rw [map_rot_range]
  exact List.rotate_perm _ _

theorem cycle_sum (n c : Nat) (W : Nat → Nat) :
    ((List.range n).map (fun j => W ((c + j) % n))).sum = ((List.range n).map W).sum := by
  have h : (List.range n).map (fun j => W ((c + j) % n)) =
      ((List.range n).map (fun j => (c + j) % n)).map W := by
    rw [List.map_map]; rfl
  rw [h]
  exact ((rot_range_perm n c).map W).sum_eq

theorem cycle_perm (n c : Nat) (F : Nat → List Nat) :
    ((List.range n).flatMap (fun j => F ((c + j) % n))).Perm ((List.range n).flatMap F) := by
  have h : (List.range n).flatMap (fun j => F ((c + j) % n)) =
      ((List.range n).map (fun j => (c + j) % n)).flatMap F := by
    rw [List.flatMap_map]
  rw [h]
  exact (rot_range_perm n c).flatMap_right F

theorem count_blocks (W : Nat → Nat) (i : Nat) :
    ∀ n : Nat, ((List.range n).flatMap (fun j => List.replicate (W j) j)).count i =
      if i < n then W i else 0 := by
  intro n
  induction n with
  | zero => simp
  | succ n ih =>
    rw [List.range_succ, List.flatMap_append, List.count_append, ih]
    simp only [List.flatMap_cons, List.flatMap_nil, List.append_nil, List.count_replicate,
      beq_iff_eq]
    by_cases h1 : i < n
    · rw [if_pos h1, if_neg (by omega), if_pos (by omega)]; rfl
    · rw [if_neg h1]
      by_cases h2 : n = i
      · rw [if_pos h2, if_pos (by omega), h2]; simp
      · rw [if_neg h2, if_neg (by omega)]

theorem map_weightAt_range (l : List load_balancer) :
    (List.range l.length).map (weightAt l) = l.map (fun lb => lb.contention_ratio.toNat) := by
  apply List.ext_getElem
  · simp
  · intro k h1 h2
    simp only [List.length_map, List.length_range] at h1
    simp [weightAt, List.getElem?_eq_getElem h1]

theorem total_weight_toNat (l : List load_balancer) (hv : ValidWeights l) :
    (total_weight l).toNat = (l.map (fun lb => lb.contention_ratio.toNat)).sum ∧
      0 ≤ total_weight l := by
  induction l with
  | nil => simp [total_weight]
  | cons a t ih =>
    have ha := hv a (List.mem_cons_self _ _)
    have ht := ih (fun lb hlb => hv lb (List.mem_cons_of_mem _ hlb))
    unfold total_weight at ht ⊢
    simp only [List.map_cons, List.sum_cons]
    omega

theorem cycle_total (l : List load_balancer) (hv : ValidWeights l) (c : Nat) :
    ((List.range l.length).map (fun j => weightAt l ((c + j) % l.length))).sum =
      (total_weight l).toNat := by
  rw [cycle_sum l.length c (weightAt l), map_weightAt_range, (total_weight_toNat l hv).1]

/-! ### The skip loop -/

theorem skip_loop_stop (b : Int) (fuel : Nat) (g : Globals)
    (hb : b.testBit g.lb_index = false) : skip_loop b fuel g = Outcome.ok g := by
  rw [skip_loop]
  simp [hb]

theorem skip_loop_step (b : Int) (fuel : Nat) (g : Globals) (lb : load_balancer)
    (hb : b.testBit g.lb_index = true) (hlb : g.lb_list[g.lb_index]? = some lb) :
    skip_loop b (fuel + 1) g =
      skip_loop b fuel ⟨next_index g.lb_list.length g.lb_index,
        g.lb_list.set g.lb_index { lb with current_connections := 0 }⟩ := by
  rw [skip_loop]
  simp only [hb, if_true, hlb, List.length_set]
  rfl

theorem skip_loop_out_of_fuel (b : Int) (g : Globals) (lb : load_balancer)
    (hb : b.testBit g.lb_index = true) (hlb : g.lb_list[g.lb_index]? = some lb) :
    skip_loop b 0 g = Outcome.diverge := by
  rw [skip_loop]
  simp only [hb, if_true, hlb]

theorem skip_loop_fault (b : Int) (fuel : Nat) (g : Globals)
    (hb : b.testBit g.lb_index = true) (hlb : g.lb_list[g.lb_index]? = none) :
    skip_loop b fuel g = Outcome.fault := by
  rw [skip_loop]
  simp only [hb, if_true, hlb]

theorem skip_loop_inv (b : Int) (P : Globals → Prop)
    (hstep : ∀ (g : Globals) (lb : load_balancer), P g → b.testBit g.lb_index = true →
      g.lb_list[g.lb_index]? = some lb →
      P ⟨next_index g.lb_list.length g.lb_index,
        g.lb_list.set g.lb_index { lb with current_connections := 0 }⟩) :
    ∀ (fuel : Nat) (g g' : Globals), P g → skip_loop b fuel g = Outcome.ok g' →
      P g' ∧ b.testBit g'.lb_index = false := by
  intro fuel
  induction fuel with
  | zero =>
    intro g g' hP h
    cases hb : b.testBit g.lb_index with
    | false =>
      rw [skip_loop_stop b 0 g hb] at h
      injection h with h
      subst h
      exact ⟨hP, hb⟩
    | true =>
      cases hlb : g.lb_list[g.lb_index]? with
      | none => rw [skip_loop_fault b 0 g hb hlb] at h; exact absurd h (by simp)
      | some lb => rw [skip_loop_out_of_fuel b g lb hb hlb] at h; exact absurd h (by simp)
  | succ fuel ih =>
    intro g g' hP h
    cases hb : b.testBit g.lb_index with
    | false =>
      rw [skip_loop_stop b _ g hb] at h
      injection h with h
      subst h
      exact ⟨hP, hb⟩
    | true =>
      cases hlb : g.lb_list[g.lb_index]? with
      | none => rw [skip_loop_fault b _ g hb hlb] at h; exact absurd h (by simp)
      | some lb =>
        rw [skip_loop_step b fuel g lb hb hlb] at h
        exact ih _ g' (hstep g lb hP hb hlb) h

theorem next_index_lt (n c : Nat) (h : c < n) : next_index n c < n := by
  unfold next_index
  split <;> omega

theorem next_index_eq_mod (n c : Nat) (h : c < n) : next_index n c = (c + 1) % n := by
  have := next_index_mod n c (by omega)
  rwa [Nat.mod_eq_of_lt h] at this

/-- With every pool index excluded, no amount of fuel lets the skip loop exit. -/
theorem skip_loop_all_excluded (b : Int) :
    ∀ (fuel : Nat) (g : Globals), InRange g →
      (∀ i, i < g.lb_list.length → b.testBit i = true) →
      skip_loop b fuel g = Outcome.diverge := by
  intro fuel
  induction fuel with
  | zero =>
    intro g hr hall
    exact skip_loop_out_of_fuel b g _ (hall _ hr) (List.getElem?_eq_getElem hr)
  | succ fuel ih =>
    intro g hr hall
    rw [skip_loop_step b fuel g _ (hall _ hr) (List.getElem?_eq_getElem hr)]
    apply ih
    · simp only [InRange, List.length_set]
      exact next_index_lt _ _ hr
    · simpa using hall

theorem skip_loop_length (b : Int) (fuel : Nat) (g g' : Globals) (hr : InRange g)
    (h : skip_loop b fuel g = Outcome.ok g') :
    g'.lb_list.length = g.lb_list.length ∧ InRange g' := by
  have := skip_loop_inv b
    (fun x => x.lb_list.length = g.lb_list.length ∧ InRange x)
    (by
      intro x lb hx _ _
      simp only [InRange, List.length_set] at hx ⊢
      exact ⟨hx.1, next_index_lt _ _ hx.2⟩)
    fuel g g' ⟨rfl, hr⟩ h
  exact this.1

theorem skip_loop_pointwise (b : Int) (fuel : Nat) (g g' : Globals)
    (h : skip_loop b fuel g = Outcome.ok g') :
    ∀ (i : Nat) (lb : load_balancer), g.lb_list[i]? = some lb →
      ∃ lb', g'.lb_list[i]? = some lb' ∧
        (lb' = lb ∨ lb' = { lb with current_connections := 0 }) := by
  have := skip_loop_inv b
    (fun x => ∀ (i : Nat) (lb : load_balancer), g.lb_list[i]? = some lb →
      ∃ lb', x.lb_list[i]? = some lb' ∧
        (lb' = lb ∨ lb' = { lb with current_connections := 0 }))
    (by
      intro x lbx hx _ hlbx i lb hi
      obtain ⟨lb', h1, h2⟩ := hx i lb hi
      by_cases hc : x.lb_index = i
      · subst hc
        rw [hlbx] at h1
        injection h1 with h1
        subst h1
        have hlt : x.lb_index < x.lb_list.length := by
          rcases List.getElem?_eq_some_iff.mp hlbx with ⟨hlt, _⟩
          exact hlt
        refine ⟨{ lbx with current_connections := 0 }, ?_, ?_⟩
        · simp [List.getElem?_set, hlt]
        · rcases h2 with h2 | h2
          · right; rw [h2]
          · right; rw [h2]
      · refine ⟨lb', ?_, h2⟩
        simp only []
        rw [List.getElem?_set_ne hc]
        exact h1)
    fuel g g' (fun i lb hi => ⟨lb, hi, Or.inl rfl⟩) h
  exact this.1

theorem skip_loop_keeps_zero (b : Int) (fuel : Nat) (g g' : Globals) (i : Nat)
    (hz : ∃ lb, g.lb_list[i]? = some lb ∧ lb.current_connections = 0)
    (h : skip_loop b fuel g = Outcome.ok g') :
    ∃ lb, g'.lb_list[i]? = some lb ∧ lb.current_connections = 0 := by
  obtain ⟨lb, h1, h2⟩ := hz
  obtain ⟨lb', h3, h4⟩ := skip_loop_pointwise b fuel g g' h i lb h1
  refine ⟨lb', h3, ?_⟩
  rcases h4 with h4 | h4
  · rw [h4]; exact h2
  · rw [h4]

/-- Exactly `d` skip steps: the `d` positions from the cursor on are excluded and
the next one is not. -/
theorem skip_loop_run (b : Int) :
    ∀ (d : Nat) (g : Globals), InRange g →
      (∀ k, k < d → b.testBit ((g.lb_index + k) % g.lb_list.length) = true) →
      b.testBit ((g.lb_index + d) % g.lb_list.length) = false →
      (∀ fuel, d ≤ fuel → ∃ g', skip_loop b fuel g = Outcome.ok g' ∧
          g'.lb_index = (g.lb_index + d) % g.lb_list.length ∧
          ∀ k, k < d → ∃ lb, g'.lb_list[(g.lb_index + k) % g.lb_list.length]? = some lb ∧
            lb.current_connections = 0) ∧
      (∀ fuel, fuel < d → skip_loop b fuel g = Outcome.diverge) := by
  intro d
  induction d with
  | zero =>
    intro g hr _ hd
    have hc : (g.lb_index + 0) % g.lb_list.length = g.lb_index := by
      rw [Nat.add_zero]; exact Nat.mod_eq_of_lt hr
    rw [hc] at hd
    refine ⟨?_, fun fuel hf => absurd hf (Nat.not_lt_zero _)⟩
    intro fuel _
    exact ⟨g, skip_loop_stop b fuel g hd, hc.symm, fun k hk => absurd hk (Nat.not_lt_zero _)⟩
  | succ d ih =>
    intro g hr hk hd
    have hn : 0 < g.lb_list.length := Nat.lt_of_le_of_lt (Nat.zero_le _) hr
    have hb0 : b.testBit g.lb_index = true := by
      have := hk 0 (Nat.succ_pos _)
      rwa [Nat.add_zero, Nat.mod_eq_of_lt hr] at this
    have hlb : g.lb_list[g.lb_index]? = some g.lb_list[g.lb_index] :=
      List.getElem?_eq_getElem hr
    let g1 : Globals := ⟨next_index g.lb_list.length g.lb_index,
      g.lb_list.set g.lb_index { g.lb_list[g.lb_index] with current_connections := 0 }⟩
    have hlen1 : g1.lb_list.length = g.lb_list.length := by simp [g1]
    have hr1 : InRange g1 := by
      simp only [InRange, hlen1]
      exact next_index_lt _ _ hr
    have hshift : ∀ k, (g1.lb_index + k) % g1.lb_list.length =
        (g.lb_index + (k + 1)) % g.lb_list.length := by
      intro k
      rw [hlen1]
      show (next_index g.lb_list.length g.lb_index + k) % _ = _
      rw [next_index_eq_mod _ _ hr, Nat.mod_add_mod]
      congr 1
      omega
    have hk1 : ∀ k, k < d → b.testBit ((g1.lb_index + k) % g1.lb_list.length) = true := by
      intro k hkd
      rw [hshift]
      exact hk (k + 1) (by omega)
    have hd1 : b.testBit ((g1.lb_index + d) % g1.lb_list.length) = false := by
      rw [hshift]; exact hd
    obtain ⟨ihok, ihdiv⟩ := ih g1 hr1 hk1 hd1
    constructor
    · intro fuel hf
      obtain ⟨f, rfl⟩ : ∃ f, fuel = f + 1 := ⟨fuel - 1, by omega⟩
      obtain ⟨g', hg', hidx, hzero⟩ := ihok f (by omega)
      rw [hshift] at hidx
      refine ⟨g', ?_, hidx, ?_⟩
      · rw [skip_loop_step b f g _ hb0 hlb]
        exact hg'
      · intro k hkd
        cases k with
        | zero =>
          rw [Nat.add_zero, Nat.mod_eq_of_lt hr]
          apply skip_loop_keeps_zero b f g1 g' g.lb_index _ hg'
          refine ⟨{ g.lb_list[g.lb_index] with current_connections := 0 }, ?_, rfl⟩
          have hr' : g.lb_index < g.lb_list.length := hr
          simp [g1, List.getElem?_set, hr']
        | succ k =>
          have := hzero k (by omega)
          rwa [hshift] at this
    · intro fuel hf
      cases fuel with
      | zero => exact skip_loop_out_of_fuel b g _ hb0 hlb
      | succ f =>
        rw [skip_loop_step b f g _ hb0 hlb]
        exact ihdiv f (by omega)

theorem exists_first_free (b : Int) (n c : Nat) (hc : c < n)
    (h : ∃ i, i < n ∧ b.testBit i = false) :
    ∃ d, d < n ∧ (∀ k, k < d → b.testBit ((c + k) % n) = true) ∧
      b.testBit ((c + d) % n) = false := by
  obtain ⟨i, hi, hbi⟩ := h
  have hex : ∃ d, b.testBit ((c + d) % n) = false := by
    by_cases hci : c ≤ i
    · refine ⟨i - c, ?_⟩
      have : c + (i - c) = i := by omega
      rw [this, Nat.mod_eq_of_lt hi]; exact hbi
    · refine ⟨i + n - c, ?_⟩
      have : c + (i + n - c) = i + n := by omega
      rw [this, Nat.add_mod_right, Nat.mod_eq_of_lt hi]; exact hbi
  have hdn : Nat.find hex < n := by
    by_cases hci : c ≤ i
    · have : Nat.find hex ≤ i - c := Nat.find_min' hex (by
        have : c + (i - c) = i := by omega
        rw [this, Nat.mod_eq_of_lt hi]; exact hbi)
      omega
    · have : Nat.find hex ≤ i + n - c := Nat.find_min' hex (by
        have : c + (i + n - c) = i + n := by omega
        rw [this, Nat.add_mod_right, Nat.mod_eq_of_lt hi]; exact hbi)
      omega
  refine ⟨Nat.find hex, hdn, ?_, Nat.find_spec hex⟩
  intro k hk
  have := Nat.find_min hex hk
  simpa using this

theorem decode_params_nil (n : Nat) : decode_params [] n = none := by
  simp [decode_params]

theorem decode_params_pair (seed b : Int) (n : Nat) :
    decode_params [Param.int seed, Param.bigInt (some b)] n =
      if 0 ≤ seed ∧ seed < (n : Int) then some b else none := by
  simp only [decode_params, scan_params, List.length_cons, List.length_nil]
  by_cases h : 0 ≤ seed ∧ seed < (n : Int)
  · rw [if_pos h]
    simp
    omega
  · rw [if_neg h]
    simp
    omega

theorem setCC_getElem?_ne (l : List load_balancer) (c i : Nat) (u : Int) (h : c ≠ i) :
    (setCC l c u)[i]? = l[i]? := by
  unfold setCC
  split
  · rw [List.getElem?_set_ne h]
  · rfl

theorem mem_setCC (l : List load_balancer) (c : Nat) (u : Int) (x : load_balancer)
    (hx : x ∈ setCC l c u) :
    x ∈ l ∨ ∃ lb, l[c]? = some lb ∧ x = { lb with current_connections := u } := by
  unfold setCC at hx
  split at hx
  · rename_i lb hlb
    rcases List.mem_or_eq_of_mem_set hx with h | h
    · exact Or.inl h
    · exact Or.inr ⟨lb, hlb, h⟩
  · exact Or.inl hx

theorem map_weight_set (l : List load_balancer) (c : Nat) (lb : load_balancer) (u : Int)
    (h : l[c]? = some lb) :
    (l.set c { lb with current_connections := u }).map (fun x => x.contention_ratio) =
      l.map (fun x => x.contention_ratio) := by
  apply List.ext_getElem?
  intro i
  by_cases hi : c = i
  · subst hi
    simp only [List.getElem?_map, List.getElem?_set, if_true]
    split
    · rw [h]; rfl
    · rename_i hlt
      rw [List.getElem?_eq_none (by omega)] at h
      exact absurd h (by simp)
  · simp only [List.getElem?_map]
    rw [List.getElem?_set_ne hi]

theorem map_weight_setCC (l : List load_balancer) (c : Nat) (u : Int) :
    (setCC l c u).map (fun x => x.contention_ratio) = l.map (fun x => x.contention_ratio) := by
  unfold setCC
  split
  · rename_i lb hlb
    exact map_weight_set l c lb u hlb
  · rfl

theorem grant_eq (g : Globals) (lb : load_balancer) (h : g.lb_list[g.lb_index]? = some lb) :
    grant g = Outcome.ok (⟨g.lb_index, g.lb_index⟩,
      if wrapInt (lb.current_connections + 1) = lb.contention_ratio then
        ⟨next_index g.lb_list.length g.lb_index, setCC g.lb_list g.lb_index 0⟩
      else ⟨g.lb_index, setCC g.lb_list g.lb_index (wrapInt (lb.current_connections + 1))⟩) := by
  obtain ⟨c, l⟩ := g
  simp only at h ⊢
  have hs := setCC_self l c lb h
  by_cases hw : wrapInt (lb.current_connections + 1) = lb.contention_ratio
  · have := grant_setCC_eq l c lb.current_connections lb h hw
    rw [hs] at this
    rw [this, if_pos hw]
  · have := grant_setCC_lt l c lb.current_connections lb h hw
    rw [hs] at this
    rw [this, if_neg hw]

theorem grant_fault (g : Globals) (h : ¬ InRange g) : grant g = Outcome.fault := by
  unfold grant
  rw [List.getElem?_eq_none (by unfold InRange at h; omega)]

/-! ### Invariants of one call -/

theorem validWeights_of_map_eq (l l' : List load_balancer)
    (h : l'.map (fun x => x.contention_ratio) = l.map (fun x => x.contention_ratio))
    (hv : ValidWeights l) : ValidWeights l' := by
  intro lb hlb
  have hm : lb.contention_ratio ∈ l'.map (fun x => x.contention_ratio) :=
    List.mem_map_of_mem _ hlb
  rw [h] at hm
  obtain ⟨x, hx, hxe⟩ := List.mem_map.mp hm
  have := hv x hx
  rw [← hxe]
  exact this

theorem length_of_map_eq (l l' : List load_balancer)
    (h : l'.map (fun x => x.contention_ratio) = l.map (fun x => x.contention_ratio)) :
    l'.length = l.length := by
  have := congrArg List.length h
  simpa using this

theorem othersZero_setCC_zero (g : Globals) (c' : Nat) (h : OthersZero g) :
    OthersZero ⟨c', setCC g.lb_list g.lb_index 0⟩ := by
  intro i lb _ hlb
  simp only at hlb
  by_cases hc : g.lb_index = i
  · subst hc
    cases hl : g.lb_list[g.lb_index]? with
    | none =>
      unfold setCC at hlb
      rw [hl] at hlb
      simp only at hlb
      rw [hl] at hlb
      exact absurd hlb (by simp)
    | some lb0 =>
      rw [setCC_getElem?_self _ _ _ lb0 hl] at hlb
      injection hlb with hlb
      rw [← hlb]
  · rw [setCC_getElem?_ne _ _ _ _ hc] at hlb
    exact h i lb (fun e => hc e.symm) hlb

theorem othersZero_setCC (g : Globals) (u : Int) (h : OthersZero g) :
    OthersZero ⟨g.lb_index, setCC g.lb_list g.lb_index u⟩ := by
  intro i lb hi hlb
  simp only at hlb hi
  rw [setCC_getElem?_ne _ _ _ _ (fun e => hi e.symm)] at hlb
  exact h i lb hi hlb

theorem grant_inv (g g' : Globals) (sel : Selection)
    (h : grant g = Outcome.ok (sel, g')) :
    InRange g ∧ sel = ⟨g.lb_index, g.lb_index⟩ ∧ InRange g' ∧
      g'.lb_list.map (fun x => x.contention_ratio) =
        g.lb_list.map (fun x => x.contention_ratio) ∧
      (OthersZero g → OthersZero g') ∧
      (ValidWeights g.lb_list → CountersOk g.lb_list → CountersOk g'.lb_list) := by
  have hr : InRange g := by
    by_contra hn
    rw [grant_fault g hn] at h
    exact absurd h (by simp)
  have hlb : g.lb_list[g.lb_index]? = some g.lb_list[g.lb_index] :=
    List.getElem?_eq_getElem hr
  rw [grant_eq g _ hlb] at h
  simp only [Outcome.ok.injEq, Prod.mk.injEq] at h
  obtain ⟨hsel, hg'⟩ := h
  refine ⟨hr, hsel.symm, ?_⟩
  have hmem : g.lb_list[g.lb_index] ∈ g.lb_list := List.getElem_mem _
  split at hg'
  · rename_i hw
    subst hg'
    refine ⟨?_, map_weight_setCC _ _ _, othersZero_setCC_zero g _, ?_⟩
    · simp only [InRange, setCC_length]
      exact next_index_lt _ _ hr
    · intro hv hc x hx
      simp only at hx
      rcases mem_setCC _ _ _ _ hx with hx | ⟨lb, _, hx⟩
      · exact hc x hx
      · rw [hlb] at *
        rename_i hlb'
        injection hlb' with hlb'
        subst hlb'
        subst hx
        exact ⟨le_refl _, (hv _ hmem).1⟩
  · rename_i hw
    subst hg'
    refine ⟨?_, map_weight_setCC _ _ _, othersZero_setCC g _, ?_⟩
    · simp only [InRange, setCC_length]
      exact hr
    · intro hv hc x hx
      simp only at hx
      rcases mem_setCC _ _ _ _ hx with hx | ⟨lb, hlb', hx⟩
      · exact hc x hx
      · rw [hlb] at hlb'
        injection hlb' with hlb'
        subst hlb'
        subst hx
        have h1 := hc _ hmem
        have h2 := hv _ hmem
        have hwrap : wrapInt (g.lb_list[g.lb_index].current_connections + 1) =
            g.lb_list[g.lb_index].current_connections + 1 :=
          wrapInt_of_range _ (by omega) (by omega)
        rw [hwrap] at hw ⊢
        simp only
        omega

theorem skip_loop_invs (b : Int) (fuel : Nat) (g g' : Globals) (hr : InRange g)
    (h : skip_loop b fuel g = Outcome.ok g') :
    InRange g' ∧
      g'.lb_list.map (fun x => x.contention_ratio) =
        g.lb_list.map (fun x => x.contention_ratio) ∧
      (OthersZero g → OthersZero g') ∧
      (ValidWeights g.lb_list → CountersOk g.lb_list → CountersOk g'.lb_list) := by
  refine ⟨(skip_loop_length b fuel g g' hr h).2, ?_, ?_, ?_⟩
  · exact (skip_loop_inv b
      (fun x => x.lb_list.map (fun x => x.contention_ratio) =
        g.lb_list.map (fun x => x.contention_ratio))
      (by
        intro x lb hx _ hlb
        simp only at hx ⊢
        rw [map_weight_set _ _ lb 0 hlb]
        exact hx)
      fuel g g' rfl h).1
  · intro hz
    exact (skip_loop_inv b OthersZero
      (by
        intro x lb hx _ hlb
        have := othersZero_setCC_zero x (next_index x.lb_list.length x.lb_index) hx
        unfold setCC at this
        rw [hlb] at this
        exact this)
      fuel g g' hz h).1
  · intro hv hc x hx
    obtain ⟨i, hi⟩ := List.mem_iff_getElem?.mp hx
    have hlen := (skip_loop_length b fuel g g' hr h).1
    have hi' : i < g.lb_list.length := by
      rcases List.getElem?_eq_some_iff.mp hi with ⟨hlt, _⟩
      omega
    obtain ⟨lb', h1, h2⟩ := skip_loop_pointwise b fuel g g' h i g.lb_list[i]
      (List.getElem?_eq_getElem hi')
    rw [hi] at h1
    injection h1 with h1
    subst h1
    have hm : g.lb_list[i] ∈ g.lb_list := List.getElem_mem _
    rcases h2 with h2 | h2
    · rw [h2]; exact hc _ hm
    · rw [h2]; exact ⟨le_refl _, (hv _ hm).1⟩

theorem get_load_balancer_inv (fuel : Nat) (params : List Param) (g g' : Globals)
    (sel : Selection) (hr : InRange g)
    (h : get_load_balancer fuel params g = Outcome.ok (sel, g')) :
    InRange g' ∧ sel.ilb < g.lb_list.length ∧ sel.lb = sel.ilb ∧
      g'.lb_list.map (fun x => x.contention_ratio) =
        g.lb_list.map (fun x => x.contention_ratio) ∧
      (OthersZero g → OthersZero g') ∧
      (ValidWeights g.lb_list → CountersOk g.lb_list → CountersOk g'.lb_list) := by
  unfold get_load_balancer at h
  cases hd : decode_params params g.lb_list.length with
  | none =>
    rw [hd] at h
    simp only at h
    obtain ⟨h1, h2, h3, h4, h5, h6⟩ := grant_inv g g' sel h
    subst h2
    exact ⟨h3, h1, rfl, h4, h5, h6⟩
  | some b =>
    rw [hd] at h
    simp only at h
    cases hs : skip_loop b fuel g with
    | fault => rw [hs] at h; exact absurd h (by simp)
    | diverge => rw [hs] at h; exact absurd h (by simp)
    | ok g1 =>
      rw [hs] at h
      simp only at h
      obtain ⟨s1, s2, s3, s4⟩ := skip_loop_invs b fuel g g1 hr hs
      obtain ⟨h1, h2, h3, h4, h5, h6⟩ := grant_inv g1 g' sel h
      subst h2
      have hlen := length_of_map_eq _ _ s2
      refine ⟨h3, ?_, rfl, h4.trans s2, fun hz => h5 (s3 hz), ?_⟩
      · simp only [InRange] at h1
        show g1.lb_index < g.lb_list.length
        omega
      · intro hv hc
        exact h6 (validWeights_of_map_eq _ _ s2 hv) (s4 hv hc)

theorem grant_ok (g : Globals) (hr : InRange g) :
    ∃ g', grant g = Outcome.ok (⟨g.lb_index, g.lb_index⟩, g') ∧
      ∀ i, g.lb_index ≠ i → g'.lb_list[i]? = g.lb_list[i]? := by
  have hlb : g.lb_list[g.lb_index]? = some g.lb_list[g.lb_index] :=
    List.getElem?_eq_getElem hr
  refine ⟨_, grant_eq g _ hlb, ?_⟩
  intro i hi
  split
  · exact setCC_getElem?_ne _ _ _ _ hi
  · exact setCC_getElem?_ne _ _ _ _ hi

/-- A call with a valid seed and an exclusion set whose first free position is `d`
steps after the cursor returns that position and leaves the skipped counters at `0`. -/
theorem get_load_balancer_excl (g : Globals) (seed b : Int) (d fuel : Nat) (hr : InRange g)
    (hseed : 0 ≤ seed ∧ seed < (g.lb_list.length : Int))
    (hk : ∀ k, k < d → b.testBit ((g.lb_index + k) % g.lb_list.length) = true)
    (hd : b.testBit ((g.lb_index + d) % g.lb_list.length) = false) (hf : d ≤ fuel) :
    ∃ sel g', get_load_balancer fuel [Param.int seed, Param.bigInt (some b)] g =
        Outcome.ok (sel, g') ∧
      sel.ilb = (g.lb_index + d) % g.lb_list.length ∧
      ∀ k, k < d → ∃ lb, g'.lb_list[(g.lb_index + k) % g.lb_list.length]? = some lb ∧
        lb.current_connections = 0 := by
  obtain ⟨g1, hs, hidx, hzero⟩ := (skip_loop_run b d g hr hk hd).1 fuel hf
  have hr1 := (skip_loop_length b fuel g g1 hr hs).2
  obtain ⟨g', hg, hsame⟩ := grant_ok g1 hr1
  refine ⟨⟨g1.lb_index, g1.lb_index⟩, g', ?_, hidx, ?_⟩
  · unfold get_load_balancer
    rw [decode_params_pair, if_pos hseed]
    simp only [hs]
    exact hg
  · intro k hkd
    obtain ⟨lb, h1, h2⟩ := hzero k hkd
    have hne : g1.lb_index ≠ (g.lb_index + k) % g.lb_list.length := by
      intro e
      have h3 := hk k hkd
      rw [← e, hidx, hd] at h3
      exact absurd h3 (by simp)
    exact ⟨lb, by rw [hsame _ hne]; exact h1, h2⟩

theorem setCC_setCC (l : List load_balancer) (c : Nat) (u v : Int) :
    setCC (setCC l c u) c v = setCC l c v := by
  cases h : l[c]? with
  | none => simp [setCC, h]
  | some lb =>
    have h1 := setCC_getElem?_self l c u lb h
    have h2 := setCC_set l c u v lb h
    have h3 : ∀ (l' : List load_balancer) (x : load_balancer), l'[c]? = some x →
        setCC l' c v = l'.set c { x with current_connections := v } := by
      intro l' x hx
      unfold setCC
      rw [hx]
    rw [h3 _ _ h1]
    exact h2

theorem weightAt_of_map_eq (l l' : List load_balancer)
    (h : l'.map (fun x => x.contention_ratio) = l.map (fun x => x.contention_ratio))
    (i : Nat) : weightAt l' i = weightAt l i := by
  have := congrArg (fun m => m[i]?) h
  simp only [List.getElem?_map] at this
  unfold weightAt
  cases h1 : l'[i]? <;> cases h2 : l[i]? <;> simp [h1, h2] at this ⊢
  rw [this]

theorem total_weight_of_map_eq (l l' : List load_balancer)
    (h : l'.map (fun x => x.contention_ratio) = l.map (fun x => x.contention_ratio)) :
    total_weight l' = total_weight l := by
  unfold total_weight
  rw [h]

theorem flatMap_range_succ_shift (m c n k : Nat) (F : Nat → List Nat) (hk : k = m + 1) :
    (List.range k).flatMap (fun j => F ((c + j) % n)) =
      F (c % n) ++ (List.range m).flatMap (fun j => F ((c + 1 + j) % n)) := by
  subst hk
  rw [List.range_succ_eq_map, List.flatMap_cons, List.flatMap_map]
  have : (fun j => F ((c + Nat.succ j) % n)) = (fun j => F ((c + 1 + j) % n)) := by
    funext j
    congr 2
    omega
  simp only [Nat.add_zero]
  rw [← this]

theorem sum_range_succ_shift (m c n k : Nat) (W : Nat → Nat) (hk : k = m + 1) :
    ((List.range k).map (fun j => W ((c + j) % n))).sum =
      W (c % n) + ((List.range m).map (fun j => W ((c + 1 + j) % n))).sum := by
  subst hk
  rw [List.range_succ_eq_map, List.map_cons, List.sum_cons, List.map_map]
  have : ((fun j => W ((c + j) % n)) ∘ Nat.succ) = (fun j => W ((c + 1 + j) % n)) := by
    funext j
    simp only [Function.comp]
    congr 2
    omega
  rw [this, Nat.add_zero]

/-- One full period of plain selects from a state satisfying the pool invariants
in which only the cursor backend holds partial progress. -/
theorem run_period (g : Globals) (hr : InRange g) (hv : ValidWeights g.lb_list)
    (hc : CountersOk g.lb_list) (hz : OthersZero g) :
    ∃ out, run_selects (total_weight g.lb_list).toNat g = Outcome.ok (out, g) ∧
      ∀ i, out.count i = if i < g.lb_list.length then weightAt g.lb_list i else 0 := by
  obtain ⟨c, l⟩ := g
  simp only [InRange] at hr
  simp only at hv hc ⊢
  have hlb : l[c]? = some l[c] := List.getElem?_eq_getElem hr
  have hmem : l[c] ∈ l := List.getElem_mem _
  obtain ⟨hu0, huw⟩ := hc _ hmem
  obtain ⟨hw0, hw63⟩ := hv _ hmem
  -- the zeroed pool
  have hlen0 : (setCC l c 0).length = l.length := setCC_length _ _ _
  have hmap0 := map_weight_setCC l c 0
  have hv0 : ValidWeights (setCC l c 0) := validWeights_of_map_eq _ _ hmap0 hv
  have hlb0 := setCC_getElem?_self l c 0 _ hlb
  have hz0 : AllZero (setCC l c 0) := by
    intro x hx
    obtain ⟨i, hi⟩ := List.mem_iff_getElem?.mp hx
    by_cases hci : c = i
    · subst hci
      rw [hlb0] at hi
      injection hi with hi
      rw [← hi]
    · rw [setCC_getElem?_ne _ _ _ _ hci] at hi
      exact hz i x (fun e => hci e.symm) hi
  have hback : setCC (setCC l c 0) c l[c].current_connections = l := by
    rw [setCC_setCC]
    exact setCC_self l c _ hlb
  have hself0 : setCC (setCC l c 0) c 0 = setCC l c 0 := setCC_setCC _ _ _ _
  obtain ⟨m, hm⟩ : ∃ m, l.length = m + 1 := ⟨l.length - 1, by omega⟩
  -- phase 1: finish the block of the cursor backend
  have p1 := run_block (setCC l c 0) c _ hlb0 hw63 l[c].current_connections hu0 huw
  rw [hback, hself0, hlen0, next_index_eq_mod _ _ hr] at p1
  simp only at p1
  -- phase 2: the other backends, in pool order
  have p2 := run_cycle (setCC l c 0) hz0 hv0 (by omega) (c + 1) m
  rw [hlen0] at p2
  have hend : (c + 1 + m) % l.length = c := by
    have : c + 1 + m = c + l.length := by omega
    rw [this, Nat.add_mod_right, Nat.mod_eq_of_lt hr]
  rw [hend] at p2
  -- phase 3: back to the partial progress of the cursor backend
  have p3 := run_partial (setCC l c 0) c _ hlb0 hw63 l[c].current_connections.toNat 0
    (le_refl _) (by simp only; omega)
  have hcast : (0 : Int) + ((l[c].current_connections.toNat : Nat) : Int) =
      l[c].current_connections := by omega
  rw [hcast, hback, hself0] at p3
  have p12 := run_selects_add _ _ _ _ _ _ _ p1 p2
  have p123 := run_selects_add _ _ _ _ _ _ _ p12 p3
  -- the number of calls is the total weight
  have hw0' : weightAt (setCC l c 0) c = l[c].contention_ratio.toNat := by
    simp [weightAt, hlb0]
  have htot := cycle_total (setCC l c 0) hv0 c
  rw [hlen0, sum_range_succ_shift m c l.length l.length (weightAt (setCC l c 0)) hm,
    Nat.mod_eq_of_lt hr, hw0', total_weight_of_map_eq _ _ hmap0] at htot
  have hcount : (l[c].contention_ratio - l[c].current_connections).toNat +
      ((List.range m).map (fun j => weightAt (setCC l c 0) ((c + 1 + j) % l.length))).sum +
      l[c].current_connections.toNat = (total_weight l).toNat := by
    rw [← htot]; omega
  rw [hcount] at p123
  refine ⟨_, p123, ?_⟩
  intro i
  have hperm := (cycle_perm l.length c
    (fun j => List.replicate (weightAt (setCC l c 0) j) j)).count_eq i
  rw [count_blocks (weightAt (setCC l c 0)) i l.length] at hperm
  have hsplit := flatMap_range_succ_shift m c l.length l.length
    (fun j => List.replicate (weightAt (setCC l c 0) j) j) hm
  beta_reduce at hsplit hperm
  rw [hsplit, Nat.mod_eq_of_lt hr, hw0'] at hperm
  simp only [List.count_append, List.count_replicate] at hperm ⊢
  simp only [weightAt_of_map_eq _ _ hmap0] at hperm
  rw [← hperm]
  simp only [weightAt_of_map_eq _ _ hmap0]
  split <;> omega

theorem reachable_inv (g0 g : Globals) (hr : InRange g0) (hv : ValidWeights g0.lb_list)
    (hz : AllZero g0.lb_list) (h : Reachable g0 g) :
    InRange g ∧
      g.lb_list.map (fun x => x.contention_ratio) =
        g0.lb_list.map (fun x => x.contention_ratio) ∧
      CountersOk g.lb_list ∧ OthersZero g := by
  induction h with
  | init =>
    refine ⟨hr, rfl, ?_, fun i lb _ hlb => hz lb (List.getElem?_mem hlb)⟩
    intro lb hlb
    rw [hz lb hlb]
    exact ⟨le_refl _, (hv lb hlb).1⟩
  | call g1 g2 fuel params sel _ hcall ih =>
    obtain ⟨i1, i2, i3, i4⟩ := ih
    obtain ⟨h1, _, _, h4, h5, h6⟩ := get_load_balancer_inv fuel params g1 g2 sel i1 hcall
    exact ⟨h1, h4.trans i2, h6 (validWeights_of_map_eq _ _ i2 hv) i3, h5 i4⟩

theorem weightAt_cast (l : List load_balancer) (hv : ValidWeights l) (i : Nat)
    (lb : load_balancer) (h : l[i]? = some lb) :
    i < l.length ∧ ((weightAt l i : Nat) : Int) = lb.contention_ratio := by
  have hlt : i < l.length := by
    rcases List.getElem?_eq_some_iff.mp h with ⟨hlt, _⟩
    exact hlt
  have := (hv lb (List.getElem?_mem h)).1
  refine ⟨hlt, ?_⟩
  simp only [weightAt, h]
  omega


theorem run_selects_length :
    ∀ (k : Nat) (g g' : Globals) (out : List Nat),
      run_selects k g = Outcome.ok (out, g') → out.length = k := by
  intro k
  induction k with
  | zero =>
    intro g g' out h
    simp only [run_selects, Outcome.ok.injEq, Prod.mk.injEq] at h
    rw [← h.1]
    rfl
  | succ k ih =>
    intro g g' out h
    rw [run_selects] at h
    cases hg : get_load_balancer 0 [] g with
    | ok p =>
      obtain ⟨sel, g1⟩ := p
      rw [hg] at h
      simp only at h
      cases hrest : run_selects k g1 with
      | ok q =>
        obtain ⟨is, g2⟩ := q
        rw [hrest] at h
        simp only [Outcome.ok.injEq, Prod.mk.injEq] at h
        rw [← h.1, List.length_cons, ih g1 g2 is hrest]
      | fault => rw [hrest] at h; simp at h
      | diverge => rw [hrest] at h; simp at h
    | fault => rw [hg] at h; simp at h
    | diverge => rw [hg] at h; simp at h

/-! ### The trial set of `handle_tunnel_connection` -/

theorem int_testBit_natCast (m j : Nat) : ((m : Nat) : Int).testBit j = m.testBit j := rfl

theorem testBit_setBit (b i j : Nat) :
    (b ||| (1 <<< i)).testBit j = (b.testBit j || decide (i = j)) := by
  rw [Nat.testBit_or, Nat.one_shiftLeft, Nat.testBit_two_pow]

theorem complete_iff (b n : Nat) :
    ((b &&& ((1 <<< n) - 1)) == ((1 <<< n) - 1)) = true ↔ ∀ j, j < n → b.testBit j = true := by
  rw [Nat.one_shiftLeft, beq_iff_eq]
  constructor
  · intro h j hj
    have := congrArg (fun x => x.testBit j) h
    simp only [Nat.testBit_and, Nat.testBit_two_pow_sub_one] at this
    simpa [hj] using this
  · intro h
    apply Nat.eq_of_testBit_eq
    intro j
    simp only [Nat.testBit_and, Nat.testBit_two_pow_sub_one]
    by_cases hj : j < n
    · simp [hj, h j hj]
    · simp [hj]

theorem freeCount_zero_iff (b n : Nat) :
    freeCount b n = 0 ↔ ∀ j, j < n → b.testBit j = true := by
  unfold freeCount
  rw [Finset.card_eq_zero, Finset.filter_eq_empty_iff]
  simp

theorem freeCount_zero (n : Nat) : freeCount 0 n = n := by
  unfold freeCount
  simp

theorem freeCount_setBit (b n i : Nat) (hi : i < n) (hb : b.testBit i = false) :
    freeCount (b ||| (1 <<< i)) n + 1 = freeCount b n := by
  unfold freeCount
  have hmem : i ∈ (Finset.range n).filter (fun j => b.testBit j = false) := by
    simp [hi, hb]
  have heq : (Finset.range n).filter (fun j => (b ||| (1 <<< i)).testBit j = false) =
      ((Finset.range n).filter (fun j => b.testBit j = false)).erase i := by
    ext j
    simp only [Finset.mem_filter, Finset.mem_range, Finset.mem_erase, testBit_setBit,
      Bool.or_eq_false_iff, decide_eq_false_iff_not]
    constructor
    · rintro ⟨h1, h2, h3⟩
      exact ⟨fun e => h3 e.symm, h1, h2⟩
    · rintro ⟨h1, h2, h3⟩
      exact ⟨h2, h3, fun e => h1 e.symm⟩
  rw [heq, Finset.card_erase_of_mem hmem]
  have : 0 < ((Finset.range n).filter (fun j => b.testBit j = false)).card :=
    Finset.card_pos.mpr ⟨i, hmem⟩
  omega

theorem freeCount_le (b n : Nat) : freeCount b n ≤ n := by
  unfold freeCount
  calc ((Finset.range n).filter (fun j => b.testBit j = false)).card
      ≤ (Finset.range n).card := Finset.card_filter_le _ _
    _ = n := Finset.card_range n

theorem retry_loop_success (dial : Nat → Bool) (env : Nat → Globals → Globals)
    (skipFuel fuel k : Nat) (sel : Selection) (bitset : Option Nat) (complete : Bool)
    (g : Globals) (hd : dial k = true) :
    retry_loop dial env skipFuel fuel k sel bitset complete g =
      Outcome.ok ([Event.dial sel.lb true, Event.pipe sel.lb], g) := by
  rw [retry_loop]
  simp [hd]

theorem retry_loop_complete (dial : Nat → Bool) (env : Nat → Globals → Globals)
    (skipFuel fuel k : Nat) (sel : Selection) (bitset : Option Nat)
    (g : Globals) (hd : dial k = false) :
    retry_loop dial env skipFuel fuel k sel bitset true g =
      Outcome.ok ([Event.dial sel.lb false, Event.close_conn], g) := by
  rw [retry_loop]
  simp [hd]

theorem retry_loop_exhausted (dial : Nat → Bool) (env : Nat → Globals → Globals)
    (skipFuel fuel k : Nat) (sel : Selection) (bitset : Option Nat)
    (g : Globals) (hd : dial k = false)
    (hall : ∀ j, j < g.lb_list.length →
      (bitset.getD 0 ||| (1 <<< sel.ilb)).testBit j = true) :
    retry_loop dial env skipFuel fuel k sel bitset false g =
      Outcome.ok ([Event.dial sel.lb false, Event.close_conn], g) := by
  have hc := (complete_iff _ _).mpr hall
  rw [retry_loop]
  cases bitset with
  | none =>
    simp at hc
    simp [hd, hc]
  | some b =>
    simp at hc
    simp [hd, hc]

theorem retry_loop_retry (dial : Nat → Bool) (env : Nat → Globals → Globals)
    (skipFuel fuel k : Nat) (sel : Selection) (bitset : Option Nat)
    (g : Globals) (hd : dial k = false)
    (hfree : ¬ ∀ j, j < g.lb_list.length →
      (bitset.getD 0 ||| (1 <<< sel.ilb)).testBit j = true) :
    retry_loop dial env skipFuel (fuel + 1) k sel bitset false g =
      match get_load_balancer skipFuel
          [Param.int (sel.ilb : Int),
            Param.bigInt (some ((bitset.getD 0 ||| (1 <<< sel.ilb) : Nat) : Int))]
          (env k g) with
      | Outcome.ok (sel', g') =>
        match retry_loop dial env skipFuel fuel (k + 1) sel'
            (some (bitset.getD 0 ||| (1 <<< sel.ilb))) false g' with
        | Outcome.ok (evs, g'') =>
          Outcome.ok (Event.dial sel.lb false ::
            Event.select [Param.int (sel.ilb : Int),
              Param.bigInt (some ((bitset.getD 0 ||| (1 <<< sel.ilb) : Nat) : Int))] sel' ::
            evs, g'')
        | Outcome.fault => Outcome.fault
        | Outcome.diverge => Outcome.diverge
      | Outcome.fault => Outcome.fault
      | Outcome.diverge => Outcome.diverge := by
  have hc : ((bitset.getD 0 ||| (1 <<< sel.ilb)) &&& ((1 <<< g.lb_list.length) - 1) ==
      ((1 <<< g.lb_list.length) - 1)) = false := by
    rw [← Bool.not_eq_true, complete_iff]
    exact hfree
  rw [retry_loop]
  cases bitset with
  | none =>
    simp at hc
    simp [hd, hc]
  | some b =>
    simp at hc
    simp [hd, hc]

theorem freeCount_pos (b n i : Nat) (hi : i < n) (hb : b.testBit i = false) :
    0 < freeCount b n := by
  have := freeCount_setBit b n i hi hb
  omega

/-- Behaviour of the retry loop entered with `complete = false`: it returns, dials
only fresh indices, and when every dial fails it visits every index still free. -/
theorem retry_loop_spec (dial : Nat → Bool) (env : Nat → Globals → Globals) (skipFuel : Nat)
    (hE : EnvOk env) (n : Nat) (hsf : n - 1 ≤ skipFuel) :
    ∀ (fuel k : Nat) (sel : Selection) (bitset : Option Nat) (g : Globals),
      g.lb_list.length = n → InRange g → sel.ilb < n → sel.lb = sel.ilb →
      (bitset.getD 0).testBit sel.ilb = false →
      freeCount (bitset.getD 0) n ≤ fuel + 1 →
      ∃ evs g', retry_loop dial env skipFuel fuel k sel bitset false g =
          Outcome.ok (evs, g') ∧
        g'.lb_list.length = n ∧ InRange g' ∧
        (dialed evs).Nodup ∧
        (∀ x, x ∈ dialed evs → x < n ∧ (bitset.getD 0).testBit x = false) ∧
        (dialed evs).length ≤ freeCount (bitset.getD 0) n ∧
        (∀ p, p ∈ selects evs → ∃ (i b' : Nat),
          p.1 = [Param.int (i : Int), Param.bigInt (some (b' : Int))] ∧ i < n ∧
          b'.testBit p.2 = false ∧ p.2 < n ∧ ∃ j, j < n ∧ b'.testBit j = false) ∧
        (∀ (pre post : List Event) (i b' : Nat) (sel' : Selection),
          evs = pre ++ Event.select
            [Param.int (i : Int), Param.bigInt (some (b' : Int))] sel' :: post →
          ∀ x, b'.testBit x = true ↔ ((bitset.getD 0).testBit x = true ∨ x ∈ dialed pre)) ∧
        ((∀ j, k ≤ j → dial j = false) →
          (dialed evs).length = freeCount (bitset.getD 0) n ∧
          (selects evs).length + 1 = freeCount (bitset.getD 0) n ∧
          evs.getLast? = some Event.close_conn ∧
          evs.count Event.close_conn = 1 ∧
          ∀ lb, Event.pipe lb ∉ evs) := by
  intro fuel
  induction fuel with
  | zero =>
    intro k sel bitset g hlen hr hs hlb hb hf
    have hpos := freeCount_pos _ n _ hs hb
    have hset := freeCount_setBit _ n _ hs hb
    cases hd : dial k with
    | true =>
      refine ⟨_, g, retry_loop_success dial env skipFuel 0 k sel bitset false g hd, hlen, hr,
        ?_, ?_, ?_, ?_, ?_, ?_⟩
      · simp [dialed]
      · intro x hx
        simp only [dialed, List.mem_singleton] at hx
        rw [hx, hlb]
        exact ⟨hs, hb⟩
      · simp only [dialed, List.length_singleton]; omega
      · intro p hp
        simp [selects] at hp
      · intro pre post i b' sel' he
        have hmem : Event.select [Param.int (i : Int), Param.bigInt (some (b' : Int))] sel' ∈
            [Event.dial sel.lb true, Event.pipe sel.lb] := by
          rw [he]; simp
        simp at hmem
      · intro hall
        rw [hall k (le_refl _)] at hd
        exact absurd hd (by simp)
    | false =>
      have hall : ∀ j, j < g.lb_list.length →
          (bitset.getD 0 ||| (1 <<< sel.ilb)).testBit j = true := by
        rw [hlen, ← freeCount_zero_iff]
        omega
      refine ⟨_, g, retry_loop_exhausted dial env skipFuel 0 k sel bitset g hd hall, hlen, hr,
        ?_, ?_, ?_, ?_, ?_, ?_⟩
      · simp [dialed]
      · intro x hx
        simp only [dialed, List.mem_singleton] at hx
        rw [hx, hlb]
        exact ⟨hs, hb⟩
      · simp only [dialed, List.length_singleton]; omega
      · intro p hp
        simp [selects] at hp
      · intro pre post i b' sel' he
        have hmem : Event.select [Param.int (i : Int), Param.bigInt (some (b' : Int))] sel' ∈
            [Event.dial sel.lb false, Event.close_conn] := by
          rw [he]; simp
        simp at hmem
      · intro _
        refine ⟨?_, ?_, ?_, ?_, ?_⟩
        · simp only [dialed, List.length_singleton]; omega
        · simp only [selects, List.length_nil]; omega
        · simp
        · simp
        · intro lb; simp
  | succ f ih =>
    intro k sel bitset g hlen hr hs hlb hb hf
    have hpos := freeCount_pos _ n _ hs hb
    have hset := freeCount_setBit _ n _ hs hb
    cases hd : dial k with
    | true =>
      refine ⟨_, g, retry_loop_success dial env skipFuel _ k sel bitset false g hd, hlen, hr,
        ?_, ?_, ?_, ?_, ?_, ?_⟩
      · simp [dialed]
      · intro x hx
        simp only [dialed, List.mem_singleton] at hx
        rw [hx, hlb]
        exact ⟨hs, hb⟩
      · simp only [dialed, List.length_singleton]; omega
      · intro p hp
        simp [selects] at hp
      · intro pre post i b' sel' he
        have hmem : Event.select [Param.int (i : Int), Param.bigInt (some (b' : Int))] sel' ∈
            [Event.dial sel.lb true, Event.pipe sel.lb] := by
          rw [he]; simp
        simp at hmem
      · intro hall
        rw [hall k (le_refl _)] at hd
        exact absurd hd (by simp)
    | false =>
      by_cases hall : ∀ j, j < g.lb_list.length →
          (bitset.getD 0 ||| (1 <<< sel.ilb)).testBit j = true
      · have hz : freeCount (bitset.getD 0 ||| (1 <<< sel.ilb)) n = 0 := by
          rw [freeCount_zero_iff, ← hlen]; exact hall
        refine ⟨_, g, retry_loop_exhausted dial env skipFuel _ k sel bitset g hd hall, hlen,
          hr, ?_, ?_, ?_, ?_, ?_, ?_⟩
        · simp [dialed]
        · intro x hx
          simp only [dialed, List.mem_singleton] at hx
          rw [hx, hlb]
          exact ⟨hs, hb⟩
        · simp only [dialed, List.length_singleton]; omega
        · intro p hp
          simp [selects] at hp
        · intro pre post i b' sel' he
          have hmem : Event.select [Param.int (i : Int), Param.bigInt (some (b' : Int))] sel' ∈
              [Event.dial sel.lb false, Event.close_conn] := by
            rw [he]; simp
          simp at hmem
        · intro _
          refine ⟨?_, ?_, ?_, ?_, ?_⟩
          · simp only [dialed, List.length_singleton]; omega
          · simp only [selects, List.length_nil]; omega
          · simp
          · simp
          · intro lb; simp
      · -- another backend is still untried: select it and retry
        have hstep := retry_loop_retry dial env skipFuel f k sel bitset g hd hall
        obtain ⟨hElen, hEr⟩ := hE k g
        have hr1 : InRange (env k g) := hEr hr
        have hlen1 : (env k g).lb_list.length = n := by rw [hElen, hlen]
        have hfree : ∃ j, j < n ∧ (bitset.getD 0 ||| (1 <<< sel.ilb)).testBit j = false := by
          rw [hlen] at hall
          by_contra hno
          apply hall
          intro j hj
          by_contra hbj
          exact hno ⟨j, hj, by simpa using hbj⟩
        have hfreeI : ∃ j, j < (env k g).lb_list.length ∧
            (((bitset.getD 0 ||| (1 <<< sel.ilb) : Nat) : Int)).testBit j = false := by
          rw [hlen1]; exact hfree
        obtain ⟨d, hdn, hk, hdd⟩ := exists_first_free _ _ _ hr1 hfreeI
        obtain ⟨sel', g1, hcall, hidx, _⟩ := get_load_balancer_excl (env k g) (sel.ilb : Int)
          ((bitset.getD 0 ||| (1 <<< sel.ilb) : Nat) : Int) d skipFuel hr1
          (by rw [hlen1]; omega) hk hdd (by omega)
        obtain ⟨j1, j2, j3, j4, _, _⟩ := get_load_balancer_inv _ _ _ _ _ hr1 hcall
        have hlen2 : g1.lb_list.length = n := by
          rw [length_of_map_eq _ _ j4, hlen1]
        have hs' : sel'.ilb < n := by rw [← hlen1]; exact j2
        have hb' : (bitset.getD 0 ||| (1 <<< sel.ilb)).testBit sel'.ilb = false := by
          rw [hidx]; exact hdd
        obtain ⟨evs, g', hrec, r1, r2, r3, r4, r5, r6, r8, r7⟩ :=
          ih (k + 1) sel' (some (bitset.getD 0 ||| (1 <<< sel.ilb))) g1 hlen2 j1 hs' j3
            (by simpa using hb') (by simp only [Option.getD_some]; omega)
        simp only [Option.getD_some] at r4 r5 r7 r8
        rw [hcall] at hstep
        simp only [hrec] at hstep
        refine ⟨_, g', hstep, r1, r2, ?_, ?_, ?_, ?_, ?_, ?_⟩
        · simp only [dialed, List.nodup_cons]
          refine ⟨?_, r3⟩
          intro hmem
          have := (r4 _ hmem).2
          rw [hlb, testBit_setBit] at this
          simp at this
        · intro x hx
          simp only [dialed, List.mem_cons] at hx
          rcases hx with hx | hx
          · rw [hx, hlb]; exact ⟨hs, hb⟩
          · obtain ⟨h1, h2⟩ := r4 x hx
            rw [testBit_setBit] at h2
            simp only [Bool.or_eq_false_iff] at h2
            exact ⟨h1, h2.1⟩
        · simp only [dialed, List.length_cons]; omega
        · intro p hp
          simp only [selects, List.mem_cons] at hp
          rcases hp with hp | hp
          · subst hp
            exact ⟨sel.ilb, _, rfl, hs, hb', hs', hfree⟩
          · exact r6 p hp
        · intro pre post i b' sel'' he x
          cases pre with
          | nil =>
            simp only [List.nil_append, List.cons.injEq] at he
            exact absurd he.1 (by simp)
          | cons e1 pre1 =>
            simp only [List.cons_append, List.cons.injEq] at he
            obtain ⟨he1, he2⟩ := he
            subst he1
            cases pre1 with
            | nil =>
              simp only [List.nil_append, List.cons.injEq, Event.select.injEq,
                Param.int.injEq, Param.bigInt.injEq, Option.some.injEq, and_true,
                Nat.cast_inj] at he2
              obtain ⟨⟨⟨_, hb2⟩, _⟩, _⟩ := he2
              rw [← hb2, testBit_setBit]
              simp only [dialed, List.mem_singleton, Bool.or_eq_true, decide_eq_true_eq, hlb]
              constructor
              · rintro (h | h)
                · exact Or.inl h
                · exact Or.inr h.symm
              · rintro (h | h)
                · exact Or.inl h
                · exact Or.inr h.symm
            | cons e2 pre2 =>
              simp only [List.cons_append, List.cons.injEq] at he2
              obtain ⟨he3, he4⟩ := he2
              subst he3
              rw [r8 pre2 post i b' sel'' he4 x, testBit_setBit]
              simp only [dialed, List.mem_cons, Bool.or_eq_true, decide_eq_true_eq, hlb]
              constructor
              · rintro ((h | h) | h)
                · exact Or.inl h
                · exact Or.inr (Or.inl h.symm)
                · exact Or.inr (Or.inr h)
              · rintro (h | h | h)
                · exact Or.inl (Or.inl h)
                · exact Or.inl (Or.inr h.symm)
                · exact Or.inr h
        · intro hfail
          obtain ⟨t1, t2, t3, t4, t5⟩ := r7 (fun j hj => hfail j (by omega))
          refine ⟨?_, ?_, ?_, ?_, ?_⟩
          · simp only [dialed, List.length_cons]; omega
          · simp only [selects, List.length_cons]; omega
          · cases evs with
            | nil => simp at t3
            | cons e es =>
              rw [List.getLast?_cons_cons, List.getLast?_cons_cons]
              exact t3
          · rw [List.count_cons, List.count_cons, t4]
            simp
          · intro lb hmem
            simp only [List.mem_cons] at hmem
            rcases hmem with hmem | hmem | hmem
            · exact absurd hmem (by simp)
            · exact absurd hmem (by simp)
            · exact t5 lb hmem

/-! ## The claims -/

/-- C3: for a pool whose cursor is in range, a valid seed and an exclusion bitset
that omits at least one pool index, `get_load_balancer(seed, exclude)` returns (given
fuel for `len(pool) - 1` skip steps) the first index at or cyclically after the cursor
that is not excluded: it is `(cursor + d) mod len` for some `d < len`, the `d` positions
before it are all excluded, and it is itself not excluded. -/
theorem C3_select_returns_first_free (g : Globals) (seed b : Int) (fuel : Nat)
    (hr : InRange g) (hseed : 0 ≤ seed ∧ seed < (g.lb_list.length : Int))
    (hfree : ∃ i, i < g.lb_list.length ∧ b.testBit i = false)
    (hfuel : g.lb_list.length - 1 ≤ fuel) :
    ∃ sel g' d,
      get_load_balancer fuel [Param.int seed, Param.bigInt (some b)] g =
        Outcome.ok (sel, g') ∧
      d < g.lb_list.length ∧
      sel.ilb = (g.lb_index + d) % g.lb_list.length ∧
      (∀ k, k < d → b.testBit ((g.lb_index + k) % g.lb_list.length) = true) ∧
      b.testBit sel.ilb = false := by
  obtain ⟨d, hdn, hk, hd⟩ := exists_first_free b _ _ hr hfree
  obtain ⟨sel, g', h1, h2, _⟩ :=
    get_load_balancer_excl g seed b d fuel hr hseed hk hd (by omega)
  exact ⟨sel, g', d, h1, hdn, h2, hk, by rw [h2]; exact hd⟩

/-- Scenario B of the specification: three backends of weight 1; a plain select
returns index 0, and the following `select({0})` returns index 1. -/
theorem C3_select_returns_first_free_witness :
    get_load_balancer 0 [] ⟨0, [mkLb 1 0, mkLb 1 0, mkLb 1 0]⟩ =
        Outcome.ok (⟨0, 0⟩, ⟨1, [mkLb 1 0, mkLb 1 0, mkLb 1 0]⟩) ∧
      get_load_balancer 2 [Param.int 0, Param.bigInt (some 1)]
          ⟨1, [mkLb 1 0, mkLb 1 0, mkLb 1 0]⟩ =
        Outcome.ok (⟨1, 1⟩, ⟨2, [mkLb 1 0, mkLb 1 0, mkLb 1 0]⟩) ∧
      ∃ sel g' d,
        get_load_balancer 2 [Param.int 0, Param.bigInt (some 1)]
            ⟨1, [mkLb 1 0, mkLb 1 0, mkLb 1 0]⟩ = Outcome.ok (sel, g') ∧
        d < 3 ∧ sel.ilb = (1 + d) % 3 ∧
        (∀ k, k < d → (1 : Int).testBit ((1 + k) % 3) = true) ∧
        (1 : Int).testBit sel.ilb = false :=
  ⟨by decide, by decide,
    C3_select_returns_first_free ⟨1, [mkLb 1 0, mkLb 1 0, mkLb 1 0]⟩ 0 1 2
      (by decide) (by decide) ⟨1, by decide, by decide⟩ (by decide)⟩

/-- C6: for a pool whose cursor is in range, the skip loop of
`get_load_balancer(seed, exclude)` exits if and only if the exclusion set omits at
least one pool index. When some index is not excluded, `len(pool) - 1` skip steps are
enough to reach the grant; when every pool index is excluded, the loop exits for no
amount of fuel, and a call with a valid seed never reaches the grant step. -/
theorem C6_skip_loop_terminates_iff (g : Globals) (seed b : Int) (hr : InRange g)
    (hseed : 0 ≤ seed ∧ seed < (g.lb_list.length : Int)) :
    ((∃ i, i < g.lb_list.length ∧ b.testBit i = false) →
        (∃ g', skip_loop b (g.lb_list.length - 1) g = Outcome.ok g') ∧
        ∃ sel g', get_load_balancer (g.lb_list.length - 1)
          [Param.int seed, Param.bigInt (some b)] g = Outcome.ok (sel, g')) ∧
    ((∀ i, i < g.lb_list.length → b.testBit i = true) →
        (∀ fuel, skip_loop b fuel g = Outcome.diverge) ∧
        ∀ fuel, get_load_balancer fuel [Param.int seed, Param.bigInt (some b)] g =
          Outcome.diverge) ∧
    ((∃ fuel g', skip_loop b fuel g = Outcome.ok g') ↔
        ∃ i, i < g.lb_list.length ∧ b.testBit i = false) := by
  have hterm : (∃ i, i < g.lb_list.length ∧ b.testBit i = false) →
      ∃ g', skip_loop b (g.lb_list.length - 1) g = Outcome.ok g' := by
    intro hfree
    obtain ⟨d, hdn, hk, hd⟩ := exists_first_free b _ _ hr hfree
    obtain ⟨g', hg', _⟩ := (skip_loop_run b d g hr hk hd).1 (g.lb_list.length - 1) (by omega)
    exact ⟨g', hg'⟩
  refine ⟨?_, ?_, ?_⟩
  · intro hfree
    refine ⟨hterm hfree, ?_⟩
    obtain ⟨d, hdn, hk, hd⟩ := exists_first_free b _ _ hr hfree
    obtain ⟨sel, g', h, _⟩ :=
      get_load_balancer_excl g seed b d (g.lb_list.length - 1) hr hseed hk hd (by omega)
    exact ⟨sel, g', h⟩
  · intro hall
    refine ⟨fun fuel => skip_loop_all_excluded b fuel g hr hall, ?_⟩
    intro fuel
    unfold get_load_balancer
    rw [decode_params_pair, if_pos hseed]
    simp only [skip_loop_all_excluded b fuel g hr hall]
  · constructor
    · rintro ⟨fuel, g', h⟩
      by_contra hno
      have hall : ∀ i, i < g.lb_list.length → b.testBit i = true := by
        intro i hi
        by_contra hb
        exact hno ⟨i, hi, by simpa using hb⟩
      rw [skip_loop_all_excluded b fuel g hr hall] at h
      exact absurd h (by simp)
    · intro hfree
      exact ⟨_, hterm hfree⟩

/-- Three backends, cursor 1, exclusion set `{1, 2}` (bitset 6) and then the full
set `{0, 1, 2}` (bitset 7). -/
theorem C6_skip_loop_terminates_iff_witness :
    InRange ⟨1, [mkLb 1 0, mkLb 1 0, mkLb 1 0]⟩ ∧
    skip_loop 6 2 ⟨1, [mkLb 1 0, mkLb 1 0, mkLb 1 0]⟩ =
      Outcome.ok ⟨0, [mkLb 1 0, mkLb 1 0, mkLb 1 0]⟩ ∧
    skip_loop 6 1 ⟨1, [mkLb 1 0, mkLb 1 0, mkLb 1 0]⟩ = Outcome.diverge ∧
    (∀ fuel, skip_loop 7 fuel ⟨1, [mkLb 1 0, mkLb 1 0, mkLb 1 0]⟩ = Outcome.diverge) :=
  ⟨by decide, by decide, by decide,
    ((C6_skip_loop_terminates_iff ⟨1, [mkLb 1 0, mkLb 1 0, mkLb 1 0]⟩ 0 7 (by decide)
      (by decide)).2.1 (by decide)).1⟩

/-- C7: for a pool with cursor in range, positive weights and `0 <= used < weight`
for every backend, a `get_load_balancer` call, either without arguments or with a
seed and an exclusion set that omits at least one pool index, returns (given fuel for
`len(pool) - 1` skip steps) an index below `len(pool)` together with a pointer to the
backend in that slot, and leaves the pool with the same length and weights, the cursor
in range and `0 <= used < weight` for every backend. -/
theorem C7_select_preserves_pool_invariants (g : Globals) (params : List Param) (fuel : Nat)
    (hr : InRange g) (hv : ValidWeights g.lb_list) (hc : CountersOk g.lb_list)
    (hp : params = [] ∨ ∃ seed b, params = [Param.int seed, Param.bigInt (some b)] ∧
      ∃ i, i < g.lb_list.length ∧ b.testBit i = false)
    (hfuel : g.lb_list.length - 1 ≤ fuel) :
    ∃ sel g', get_load_balancer fuel params g = Outcome.ok (sel, g') ∧
      sel.ilb < g.lb_list.length ∧ sel.lb = sel.ilb ∧
      g'.lb_list.length = g.lb_list.length ∧
      g'.lb_list.map (fun x => x.contention_ratio) =
        g.lb_list.map (fun x => x.contention_ratio) ∧
      InRange g' ∧ ValidWeights g'.lb_list ∧ CountersOk g'.lb_list := by
  have hex : ∃ sel g', get_load_balancer fuel params g = Outcome.ok (sel, g') := by
    rcases hp with rfl | ⟨seed, b, rfl, hfree⟩
    · rw [get_load_balancer_nil]
      obtain ⟨g', hg', _⟩ := grant_ok g hr
      exact ⟨_, g', hg'⟩
    · by_cases hseed : 0 ≤ seed ∧ seed < (g.lb_list.length : Int)
      · obtain ⟨d, hdn, hk, hd⟩ := exists_first_free b _ _ hr hfree
        obtain ⟨sel, g', h, _⟩ :=
          get_load_balancer_excl g seed b d fuel hr hseed hk hd (by omega)
        exact ⟨sel, g', h⟩
      · unfold get_load_balancer
        rw [decode_params_pair, if_neg hseed]
        obtain ⟨g', hg', _⟩ := grant_ok g hr
        exact ⟨_, g', hg'⟩
  obtain ⟨sel, g', h⟩ := hex
  obtain ⟨h1, h2, h3, h4, _, h6⟩ := get_load_balancer_inv fuel params g g' sel hr h
  exact ⟨sel, g', h, h2, h3, length_of_map_eq _ _ h4, h4, h1,
    validWeights_of_map_eq _ _ h4 hv, h6 hv hc⟩

/-- Pool `[A(weight 2, used 1), B(weight 1)]` with the cursor on `A`, index 0 excluded. -/
theorem C7_select_preserves_pool_invariants_witness :
    ∃ sel g', get_load_balancer 1 [Param.int 0, Param.bigInt (some 1)]
        ⟨0, [mkLb 2 1, mkLb 1 0]⟩ = Outcome.ok (sel, g') ∧
      sel.ilb < 2 ∧ sel.lb = sel.ilb ∧
      g'.lb_list.length = 2 ∧
      g'.lb_list.map (fun x => x.contention_ratio) = [2, 1] ∧
      InRange g' ∧ ValidWeights g'.lb_list ∧ CountersOk g'.lb_list :=
  C7_select_preserves_pool_invariants ⟨0, [mkLb 2 1, mkLb 1 0]⟩
    [Param.int 0, Param.bigInt (some 1)] 1 (by decide) (by decide) (by decide)
    (Or.inr ⟨0, 1, rfl, 1, by decide, by decide⟩) (by decide)

/-- C8: for a call `get_load_balancer(seed, exclude)` with the cursor in range, a
valid seed and an exclusion set that omits at least one pool index, the backends the
skip loop passes over are the `d` positions `(cursor + k) mod len`, `k < d`, before
the returned index `(cursor + d) mod len`; each of them is excluded and has used
counter `0` in the state after the call, whatever its counter was before. -/
theorem C8_skipped_backends_are_reset (g : Globals) (seed b : Int) (fuel : Nat)
    (hr : InRange g) (hseed : 0 ≤ seed ∧ seed < (g.lb_list.length : Int))
    (hfree : ∃ i, i < g.lb_list.length ∧ b.testBit i = false)
    (hfuel : g.lb_list.length - 1 ≤ fuel) :
    ∃ sel g' d,
      get_load_balancer fuel [Param.int seed, Param.bigInt (some b)] g =
        Outcome.ok (sel, g') ∧
      d < g.lb_list.length ∧
      sel.ilb = (g.lb_index + d) % g.lb_list.length ∧
      b.testBit sel.ilb = false ∧
      ∀ k, k < d →
        b.testBit ((g.lb_index + k) % g.lb_list.length) = true ∧
        ∃ lb, g'.lb_list[(g.lb_index + k) % g.lb_list.length]? = some lb ∧
          lb.current_connections = 0 := by
  obtain ⟨d, hdn, hk, hd⟩ := exists_first_free b _ _ hr hfree
  obtain ⟨sel, g', h1, h2, h3⟩ :=
    get_load_balancer_excl g seed b d fuel hr hseed hk hd (by omega)
  exact ⟨sel, g', d, h1, hdn, h2, by rw [h2]; exact hd, fun k hkd => ⟨hk k hkd, h3 k hkd⟩⟩

/-- Pool of three with counters `[0, 4, 2]`, cursor 1, exclusion set `{1, 2}`: index 0
is returned and the counters of backends 1 and 2 are `0` afterwards. -/
theorem C8_skipped_backends_are_reset_witness :
    get_load_balancer 2 [Param.int 1, Param.bigInt (some 6)]
        ⟨1, [mkLb 5 0, mkLb 5 4, mkLb 5 2]⟩ =
      Outcome.ok (⟨0, 0⟩, ⟨0, [mkLb 5 1, mkLb 5 0, mkLb 5 0]⟩) ∧
    ∃ sel g' d,
      get_load_balancer 2 [Param.int 1, Param.bigInt (some 6)]
          ⟨1, [mkLb 5 0, mkLb 5 4, mkLb 5 2]⟩ = Outcome.ok (sel, g') ∧
      d < 3 ∧ sel.ilb = (1 + d) % 3 ∧ (6 : Int).testBit sel.ilb = false ∧
      ∀ k, k < d →
        (6 : Int).testBit ((1 + k) % 3) = true ∧
        ∃ lb, g'.lb_list[(1 + k) % 3]? = some lb ∧ lb.current_connections = 0 :=
  ⟨by decide,
    C8_skipped_backends_are_reset ⟨1, [mkLb 5 0, mkLb 5 4, mkLb 5 2]⟩ 1 6 2
      (by decide) (by decide) ⟨0, by decide, by decide⟩ (by decide)⟩

/-- C10: in every state reachable from a fresh state (all used counters `0`, cursor
in range) by any sequence of returning `get_load_balancer` calls, whatever their
arguments, the cursor is in range and every backend other than the one at the cursor
has used counter `0`. -/
theorem C10_only_cursor_backend_has_progress (g0 g : Globals) (hr : InRange g0)
    (hz : AllZero g0.lb_list) (h : Reachable g0 g) :
    InRange g ∧
      ∀ (i : Nat) (lb : load_balancer), i ≠ g.lb_index → g.lb_list[i]? = some lb →
        lb.current_connections = 0 := by
  induction h with
  | init =>
    exact ⟨hr, fun i lb _ hlb => hz lb (List.getElem?_mem hlb)⟩
  | call g1 g2 fuel params sel _ hcall ih =>
    obtain ⟨h1, _, _, _, h5, _⟩ := get_load_balancer_inv fuel params g1 g2 sel ih.1 hcall
    exact ⟨h1, h5 ih.2⟩

/-- Pool `[A(weight 3), B(weight 1), C(weight 2)]`: two plain selects, then a select
excluding index 0, reach the state with cursor 2 and counters all `0`. -/
theorem C10_only_cursor_backend_has_progress_witness :
    Reachable ⟨0, [mkLb 3 0, mkLb 1 0, mkLb 2 0]⟩ ⟨2, [mkLb 3 0, mkLb 1 0, mkLb 2 0]⟩ ∧
    (InRange ⟨2, [mkLb 3 0, mkLb 1 0, mkLb 2 0]⟩ ∧
      ∀ (i : Nat) (lb : load_balancer), i ≠ 2 →
        [mkLb 3 0, mkLb 1 0, mkLb 2 0][i]? = some lb → lb.current_connections = 0) :=
  have hreach : Reachable ⟨0, [mkLb 3 0, mkLb 1 0, mkLb 2 0]⟩
      ⟨2, [mkLb 3 0, mkLb 1 0, mkLb 2 0]⟩ :=
    Reachable.call ⟨0, [mkLb 3 2, mkLb 1 0, mkLb 2 0]⟩ _ 2
      [Param.int 0, Param.bigInt (some 1)] ⟨1, 1⟩
      (Reachable.call ⟨0, [mkLb 3 1, mkLb 1 0, mkLb 2 0]⟩ _ 0 [] ⟨0, 0⟩
        (Reachable.call ⟨0, [mkLb 3 0, mkLb 1 0, mkLb 2 0]⟩ _ 0 [] ⟨0, 0⟩
          Reachable.init (by decide))
        (by decide))
      (by decide)
  ⟨hreach, C10_only_cursor_backend_has_progress _ _ (by decide) (by decide) hreach⟩

/-- C1: for a pool with cursor `c` in range, positive weights and every used counter
`0`, a run of `sum(w_i)` consecutive `get_load_balancer()` calls without arguments
returns the index sequence `c` repeated `w_c` times, then `(c+1) mod n` repeated
`w_((c+1) mod n)` times, and so on through all `n` backends; each backend `i` is
returned exactly `w_i` times, and the run ends in the state it started from (cursor
`c`, every used counter `0`). -/
theorem C1_weighted_round_robin_cycle (g : Globals) (hr : InRange g)
    (hv : ValidWeights g.lb_list) (hz : AllZero g.lb_list) :
    ∃ out g', run_selects (total_weight g.lb_list).toNat g = Outcome.ok (out, g') ∧
      out = (List.range g.lb_list.length).flatMap (fun j =>
        List.replicate (weightAt g.lb_list ((g.lb_index + j) % g.lb_list.length))
          ((g.lb_index + j) % g.lb_list.length)) ∧
      (∀ (i : Nat) (lb : load_balancer), g.lb_list[i]? = some lb →
        ((out.count i : Nat) : Int) = lb.contention_ratio ∧
        ((weightAt g.lb_list i : Nat) : Int) = lb.contention_ratio) ∧
      g' = g ∧ g'.lb_index = g.lb_index ∧ AllZero g'.lb_list := by
  obtain ⟨c, l⟩ := g
  simp only [InRange] at hr
  simp only at hv hz ⊢
  have hn : 0 < l.length := by omega
  have hrun := run_cycle l hz hv hn c l.length
  rw [cycle_total l hv c, Nat.mod_eq_of_lt hr, Nat.add_mod_right, Nat.mod_eq_of_lt hr] at hrun
  refine ⟨_, _, hrun, rfl, ?_, rfl, rfl, hz⟩
  intro i lb hlb
  obtain ⟨hlt, hcast⟩ := weightAt_cast l hv i lb hlb
  refine ⟨?_, hcast⟩
  have hperm := (cycle_perm l.length c (fun j => List.replicate (weightAt l j) j)).count_eq i
  beta_reduce at hperm
  rw [hperm, count_blocks (weightAt l) i l.length, if_pos hlt]
  exact hcast

/-- Scenario A of the specification: pool `[A(weight 2), B(weight 1)]`, cursor 0;
three plain selects return `[0, 0, 1]` and restore cursor 0 with both counters `0`. -/
theorem C1_weighted_round_robin_cycle_witness :
    run_selects 3 ⟨0, [mkLb 2 0, mkLb 1 0]⟩ =
      Outcome.ok ([0, 0, 1], ⟨0, [mkLb 2 0, mkLb 1 0]⟩) ∧
    ∃ out g', run_selects (total_weight [mkLb 2 0, mkLb 1 0]).toNat
        ⟨0, [mkLb 2 0, mkLb 1 0]⟩ = Outcome.ok (out, g') ∧
      out = (List.range 2).flatMap (fun j =>
        List.replicate (weightAt [mkLb 2 0, mkLb 1 0] ((0 + j) % 2)) ((0 + j) % 2)) ∧
      (∀ (i : Nat) (lb : load_balancer), [mkLb 2 0, mkLb 1 0][i]? = some lb →
        ((out.count i : Nat) : Int) = lb.contention_ratio ∧
        ((weightAt [mkLb 2 0, mkLb 1 0] i : Nat) : Int) = lb.contention_ratio) ∧
      g' = ⟨0, [mkLb 2 0, mkLb 1 0]⟩ ∧ g'.lb_index = 0 ∧ AllZero g'.lb_list :=
  ⟨by decide,
    C1_weighted_round_robin_cycle ⟨0, [mkLb 2 0, mkLb 1 0]⟩ (by decide) (by decide)
      (by decide)⟩

/-- C2: for a non-empty pool with positive weights and every state reachable from
the fresh state (cursor 0, all used counters `0`) by any sequence of returning
`get_load_balancer` calls, with or without exclusion sets, the next `sum(weights)`
consecutive calls without arguments all return, and return each backend index `i`
exactly `weight_i` times. -/
theorem C2_aggregate_distribution (g0 g : Globals) (hc0 : g0.lb_index = 0)
    (hne : g0.lb_list ≠ []) (hv : ValidWeights g0.lb_list) (hz : AllZero g0.lb_list)
    (h : Reachable g0 g) :
    ∃ out g', run_selects (total_weight g0.lb_list).toNat g = Outcome.ok (out, g') ∧
      ((out.length : Nat) : Int) = total_weight g0.lb_list ∧
      ∀ (i : Nat) (lb : load_balancer), g0.lb_list[i]? = some lb →
        ((out.count i : Nat) : Int) = lb.contention_ratio := by
  have hr0 : InRange g0 := by
    unfold InRange
    rw [hc0]
    exact List.length_pos.mpr hne
  obtain ⟨i1, i2, i3, i4⟩ := reachable_inv g0 g hr0 hv hz h
  have hvg := validWeights_of_map_eq _ _ i2 hv
  obtain ⟨out, hrun, hcount⟩ := run_period g i1 hvg i3 i4
  rw [total_weight_of_map_eq _ _ i2] at hrun
  have hlen := length_of_map_eq _ _ i2
  have hcases : ∀ (i : Nat) (lb : load_balancer), g0.lb_list[i]? = some lb →
      ((out.count i : Nat) : Int) = lb.contention_ratio := by
    intro i lb hlb
    obtain ⟨hlt, hcast⟩ := weightAt_cast _ hv i lb hlb
    rw [hcount i, if_pos (by omega), weightAt_of_map_eq _ _ i2]
    exact hcast
  refine ⟨out, g, hrun, ?_, hcases⟩
  rw [run_selects_length _ _ _ _ hrun]
  have := (total_weight_toNat _ hv).2
  omega

/-- Pool `[A(weight 3), B(weight 1), C(weight 2)]`: after two plain selects and one
select excluding index 0 the cursor is on `C`; the next six plain selects return
`[2, 2, 0, 0, 0, 1]`. -/
theorem C2_aggregate_distribution_witness :
    Reachable ⟨0, [mkLb 3 0, mkLb 1 0, mkLb 2 0]⟩ ⟨2, [mkLb 3 0, mkLb 1 0, mkLb 2 0]⟩ ∧
    run_selects 6 ⟨2, [mkLb 3 0, mkLb 1 0, mkLb 2 0]⟩ =
      Outcome.ok ([2, 2, 0, 0, 0, 1], ⟨2, [mkLb 3 0, mkLb 1 0, mkLb 2 0]⟩) ∧
    ∃ out g', run_selects (total_weight [mkLb 3 0, mkLb 1 0, mkLb 2 0]).toNat
        ⟨2, [mkLb 3 0, mkLb 1 0, mkLb 2 0]⟩ = Outcome.ok (out, g') ∧
      ((out.length : Nat) : Int) = total_weight [mkLb 3 0, mkLb 1 0, mkLb 2 0] ∧
      ∀ (i : Nat) (lb : load_balancer), [mkLb 3 0, mkLb 1 0, mkLb 2 0][i]? = some lb →
        ((out.count i : Nat) : Int) = lb.contention_ratio :=
  have hreach : Reachable ⟨0, [mkLb 3 0, mkLb 1 0, mkLb 2 0]⟩
      ⟨2, [mkLb 3 0, mkLb 1 0, mkLb 2 0]⟩ :=
    Reachable.call ⟨0, [mkLb 3 2, mkLb 1 0, mkLb 2 0]⟩ _ 2
      [Param.int 0, Param.bigInt (some 1)] ⟨1, 1⟩
      (Reachable.call ⟨0, [mkLb 3 1, mkLb 1 0, mkLb 2 0]⟩ _ 0 [] ⟨0, 0⟩
        (Reachable.call ⟨0, [mkLb 3 0, mkLb 1 0, mkLb 2 0]⟩ _ 0 [] ⟨0, 0⟩
          Reachable.init (by decide))
        (by decide))
      (by decide)
  ⟨hreach, by decide,
    C2_aggregate_distribution _ _ rfl (by decide) (by decide) (by decide) hreach⟩

/-- C4: for a pool with the cursor in range, every pattern `dial` of dial successes
and failures and every interference `env` of other connections that keeps the pool's
length and a valid cursor, `handle_tunnel_connection` returns (given fuel for
`len(pool) - 1` retries and skip steps) after dialing pairwise distinct backend
indices, all inside the pool and at most `len(pool)` of them; the TrialSet passed to a
`get_load_balancer(i, TrialSet)` call holds exactly the indices dialed before that call,
and the index the call returns is outside it. -/
theorem C4_failover_dials_distinct_backends (dial : Nat → Bool)
    (env : Nat → Globals → Globals) (retryFuel skipFuel : Nat) (g : Globals)
    (hr : InRange g) (hE : EnvOk env) (hrf : g.lb_list.length - 1 ≤ retryFuel)
    (hsf : g.lb_list.length - 1 ≤ skipFuel) :
    ∃ evs g', handle_tunnel_connection dial env retryFuel skipFuel g =
        Outcome.ok (evs, g') ∧
      (dialed evs).Nodup ∧
      (dialed evs).length ≤ g.lb_list.length ∧
      (∀ x, x ∈ dialed evs → x < g.lb_list.length) ∧
      (∀ p, p ∈ selects evs → p.1 = [] ∨ ∃ (i b : Nat),
        p.1 = [Param.int (i : Int), Param.bigInt (some (b : Int))] ∧
        b.testBit p.2 = false ∧ p.2 < g.lb_list.length) ∧
      (∀ (pre post : List Event) (i b : Nat) (sel : Selection),
        evs = pre ++ Event.select
          [Param.int (i : Int), Param.bigInt (some (b : Int))] sel :: post →
        ∀ x, b.testBit x = true ↔ x ∈ dialed pre) := by
  obtain ⟨g1, hg1, _⟩ := grant_ok g hr
  have hcall : get_load_balancer skipFuel [] g =
      Outcome.ok (⟨g.lb_index, g.lb_index⟩, g1) := by
    rw [get_load_balancer_nil]; exact hg1
  obtain ⟨j1, j2, j3, j4, _, _⟩ := get_load_balancer_inv _ _ _ _ _ hr hcall
  have hlen1 : g1.lb_list.length = g.lb_list.length := length_of_map_eq _ _ j4
  unfold handle_tunnel_connection
  rw [hcall]
  simp only
  by_cases hone : 1 = g1.lb_list.length
  · rw [decide_eq_true hone]
    cases hd : dial 0 with
    | true =>
      rw [retry_loop_success dial env skipFuel _ 0 _ none true g1 hd]
      refine ⟨_, _, rfl, ?_, ?_, ?_, ?_, ?_⟩
      · simp [dialed]
      · simp only [dialed, List.length_singleton]; omega
      · intro x hx
        simp only [dialed, List.mem_singleton] at hx
        rw [hx]; exact hr
      · intro p hp
        simp only [selects, List.mem_singleton] at hp
        left; rw [hp]
      · intro pre post i b sel he
        have hmem : Event.select [Param.int (i : Int), Param.bigInt (some (b : Int))] sel ∈
            [Event.select [] ⟨g.lb_index, g.lb_index⟩, Event.dial g.lb_index true,
              Event.pipe g.lb_index] := by
          rw [he]; simp
        simp at hmem
    | false =>
      rw [retry_loop_complete dial env skipFuel _ 0 _ none g1 hd]
      refine ⟨_, _, rfl, ?_, ?_, ?_, ?_, ?_⟩
      · simp [dialed]
      · simp only [dialed, List.length_singleton]; omega
      · intro x hx
        simp only [dialed, List.mem_singleton] at hx
        rw [hx]; exact hr
      · intro p hp
        simp only [selects, List.mem_singleton] at hp
        left; rw [hp]
      · intro pre post i b sel he
        have hmem : Event.select [Param.int (i : Int), Param.bigInt (some (b : Int))] sel ∈
            [Event.select [] ⟨g.lb_index, g.lb_index⟩, Event.dial g.lb_index false,
              Event.close_conn] := by
          rw [he]; simp
        simp at hmem
  · rw [decide_eq_false hone]
    obtain ⟨evs, g', hrec, _, _, r3, r4, r5, r6, r8, _⟩ :=
      retry_loop_spec dial env skipFuel hE g.lb_list.length hsf retryFuel 0
        ⟨g.lb_index, g.lb_index⟩ none g1 hlen1 j1 hr rfl (by simp)
        (by simp only [Option.getD_none, freeCount_zero]; omega)
    rw [hrec]
    refine ⟨_, _, rfl, ?_, ?_, ?_, ?_, ?_⟩
    · simpa [dialed] using r3
    · have := freeCount_le 0 g.lb_list.length
      simp only [Option.getD_none] at r5
      simp only [dialed]
      omega
    · intro x hx
      simp only [dialed] at hx
      exact (r4 x hx).1
    · intro p hp
      simp only [selects, List.mem_cons] at hp
      rcases hp with hp | hp
      · left; rw [hp]
      · obtain ⟨i, b, h1, _, h3, h4, _⟩ := r6 p hp
        exact Or.inr ⟨i, b, h1, h3, h4⟩
    · intro pre post i b sel he x
      cases pre with
      | nil =>
        simp only [List.nil_append, List.cons.injEq] at he
        exact absurd he.1 (by simp)
      | cons e1 pre1 =>
        simp only [List.cons_append, List.cons.injEq] at he
        obtain ⟨he1, he2⟩ := he
        subst he1
        rw [r8 pre1 post i b sel he2 x]
        simp [dialed]

/-- Scenario B of the specification with interference: three backends of weight 1,
the first dial fails and the second succeeds, while another connection performs a
plain select (taking index 1) between this connection's two calls, so that this
connection is moved on to index 2. -/
theorem C4_failover_dials_distinct_backends_witness :
    EnvOk (fun _ g =>
      match get_load_balancer 0 [] g with
      | Outcome.ok (_, g') => g'
      | _ => g) ∧
    handle_tunnel_connection (fun k => decide (k = 1))
        (fun _ g =>
          match get_load_balancer 0 [] g with
          | Outcome.ok (_, g') => g'
          | _ => g) 2 2
        ⟨0, [mkLb 1 0, mkLb 1 0, mkLb 1 0]⟩ =
      Outcome.ok (
        [ Event.select [] ⟨0, 0⟩, Event.dial 0 false,
          Event.select [Param.int 0, Param.bigInt (some 1)] ⟨2, 2⟩, Event.dial 2 true,
          Event.pipe 2 ],
        ⟨0, [mkLb 1 0, mkLb 1 0, mkLb 1 0]⟩) ∧
    ∃ evs g', handle_tunnel_connection (fun k => decide (k = 1))
        (fun _ g =>
          match get_load_balancer 0 [] g with
          | Outcome.ok (_, g') => g'
          | _ => g) 2 2
        ⟨0, [mkLb 1 0, mkLb 1 0, mkLb 1 0]⟩ = Outcome.ok (evs, g') ∧
      (dialed evs).Nodup ∧
      (dialed evs).length ≤ 3 ∧
      (∀ x, x ∈ dialed evs → x < 3) ∧
      (∀ p, p ∈ selects evs → p.1 = [] ∨ ∃ (i b : Nat),
        p.1 = [Param.int (i : Int), Param.bigInt (some (b : Int))] ∧
        b.testBit p.2 = false ∧ p.2 < 3) ∧
      (∀ (pre post : List Event) (i b : Nat) (sel : Selection),
        evs = pre ++ Event.select
          [Param.int (i : Int), Param.bigInt (some (b : Int))] sel :: post →
        ∀ x, b.testBit x = true ↔ x ∈ dialed pre) :=
  have hE : EnvOk (fun _ g =>
      match get_load_balancer 0 [] g with
      | Outcome.ok (_, g') => g'
      | _ => g) := by
    intro k g
    simp only
    cases h : get_load_balancer 0 [] g with
    | ok p =>
      obtain ⟨sel, g'⟩ := p
      simp only
      rw [get_load_balancer_nil] at h
      obtain ⟨_, _, h3, h4, _, _⟩ := grant_inv g g' sel h
      exact ⟨length_of_map_eq _ _ h4, fun _ => h3⟩
    | fault => exact ⟨rfl, fun h => h⟩
    | diverge => exact ⟨rfl, fun h => h⟩
  ⟨hE, by decide,
    C4_failover_dials_distinct_backends _ _ 2 2 ⟨0, [mkLb 1 0, mkLb 1 0, mkLb 1 0]⟩
      (by decide) hE (by decide) (by decide)⟩

/-- C5: if every dial attempt fails, `handle_tunnel_connection` on a pool of `n`
backends (cursor in range, interference keeping the pool's length and a valid cursor)
returns after exactly `n` dial attempts and exactly `n` `get_load_balancer` calls: the
first without arguments, the other `n - 1` with a TrialSet that still omits at least
one pool index. Its last step is the single `conn.Close()`, and it never calls
`pipe_connections`. For `n = 1` the trace is one select, one dial and the close. -/
theorem C5_all_dials_fail_exhausts_pool (dial : Nat → Bool)
    (env : Nat → Globals → Globals) (retryFuel skipFuel : Nat) (g : Globals)
    (hr : InRange g) (hE : EnvOk env) (hfail : ∀ k, dial k = false)
    (hrf : g.lb_list.length - 1 ≤ retryFuel) (hsf : g.lb_list.length - 1 ≤ skipFuel) :
    ∃ evs g' rest, handle_tunnel_connection dial env retryFuel skipFuel g =
        Outcome.ok (evs, g') ∧
      (dialed evs).length = g.lb_list.length ∧
      selects evs = ([], g.lb_index) :: rest ∧
      rest.length = g.lb_list.length - 1 ∧
      (∀ p, p ∈ rest → ∃ (i b : Nat),
        p.1 = [Param.int (i : Int), Param.bigInt (some (b : Int))] ∧
        ∃ j, j < g.lb_list.length ∧ b.testBit j = false) ∧
      evs.getLast? = some Event.close_conn ∧
      evs.count Event.close_conn = 1 ∧
      (∀ lb, Event.pipe lb ∉ evs) ∧
      (g.lb_list.length = 1 →
        evs = [Event.select [] ⟨g.lb_index, g.lb_index⟩, Event.dial g.lb_index false,
          Event.close_conn]) := by
  obtain ⟨g1, hg1, _⟩ := grant_ok g hr
  have hcall : get_load_balancer skipFuel [] g =
      Outcome.ok (⟨g.lb_index, g.lb_index⟩, g1) := by
    rw [get_load_balancer_nil]; exact hg1
  obtain ⟨j1, j2, j3, j4, _, _⟩ := get_load_balancer_inv _ _ _ _ _ hr hcall
  have hlen1 : g1.lb_list.length = g.lb_list.length := length_of_map_eq _ _ j4
  unfold handle_tunnel_connection
  rw [hcall]
  simp only
  by_cases hone : 1 = g1.lb_list.length
  · rw [decide_eq_true hone, retry_loop_complete dial env skipFuel _ 0 _ none g1 (hfail 0)]
    refine ⟨_, _, [], rfl, ?_, ?_, ?_, ?_, ?_, ?_, ?_, ?_⟩
    · simp only [dialed, List.length_singleton]; omega
    · simp [selects]
    · simp only [List.length_nil]; omega
    · intro p hp; simp at hp
    · simp
    · simp
    · intro lb; simp
    · intro _; rfl
  · rw [decide_eq_false hone]
    obtain ⟨evs, g', hrec, _, _, _, _, _, r6, _, r7⟩ :=
      retry_loop_spec dial env skipFuel hE g.lb_list.length hsf retryFuel 0
        ⟨g.lb_index, g.lb_index⟩ none g1 hlen1 j1 hr rfl (by simp)
        (by simp only [Option.getD_none, freeCount_zero]; omega)
    obtain ⟨t1, t2, t3, t4, t5⟩ := r7 (fun j _ => hfail j)
    simp only [Option.getD_none, freeCount_zero] at t1 t2
    rw [hrec]
    refine ⟨_, _, selects evs, rfl, ?_, ?_, ?_, ?_, ?_, ?_, ?_, ?_⟩
    · simpa [dialed] using t1
    · simp [selects]
    · omega
    · intro p hp
      obtain ⟨i, b, h1, _, _, _, h5⟩ := r6 p hp
      exact ⟨i, b, h1, h5⟩
    · cases evs with
      | nil => simp at t3
      | cons e es =>
        rw [List.getLast?_cons_cons]
        exact t3
    · rw [List.count_cons, t4]
      simp
    · intro lb hmem
      simp only [List.mem_cons] at hmem
      rcases hmem with hmem | hmem
      · exact absurd hmem (by simp)
      · exact t5 lb hmem
    · intro h1
      exact absurd (h1 ▸ hlen1).symm hone

/-- Scenario C of the specification: three backends of weight 1, every dial fails. -/
theorem C5_all_dials_fail_exhausts_pool_witness :
    handle_tunnel_connection (fun _ => false) (fun _ g => g) 2 2
        ⟨0, [mkLb 1 0, mkLb 1 0, mkLb 1 0]⟩ =
      Outcome.ok (
        [ Event.select [] ⟨0, 0⟩, Event.dial 0 false,
          Event.select [Param.int 0, Param.bigInt (some 1)] ⟨1, 1⟩, Event.dial 1 false,
          Event.select [Param.int 1, Param.bigInt (some 3)] ⟨2, 2⟩, Event.dial 2 false,
          Event.close_conn ],
        ⟨0, [mkLb 1 0, mkLb 1 0, mkLb 1 0]⟩) ∧
    ∃ evs g' rest, handle_tunnel_connection (fun _ => false) (fun _ g => g) 2 2
        ⟨0, [mkLb 1 0, mkLb 1 0, mkLb 1 0]⟩ = Outcome.ok (evs, g') ∧
      (dialed evs).length = 3 ∧
      selects evs = ([], 0) :: rest ∧
      rest.length = 3 - 1 ∧
      (∀ p, p ∈ rest → ∃ (i b : Nat),
        p.1 = [Param.int (i : Int), Param.bigInt (some (b : Int))] ∧
        ∃ j, j < 3 ∧ b.testBit j = false) ∧
      evs.getLast? = some Event.close_conn ∧
      evs.count Event.close_conn = 1 ∧
      (∀ lb, Event.pipe lb ∉ evs) ∧
      ((3 : Nat) = 1 →
        evs = [Event.select [] ⟨0, 0⟩, Event.dial 0 false, Event.close_conn]) :=
  ⟨by decide,
    C5_all_dials_fail_exhausts_pool (fun _ => false) (fun _ g => g) 2 2
      ⟨0, [mkLb 1 0, mkLb 1 0, mkLb 1 0]⟩ (by decide)
      (fun _ _ => ⟨rfl, fun h => h⟩) (fun _ => rfl) (by decide) (by decide)⟩

/-- C9: `pipe_connections(local, remote)` itself closes no connection and starts
exactly two goroutines, one copying local to remote and one copying remote to local;
each of them, when its `io.Copy` ends, whether with a clean EOF (`err = false`) or with
an error (`err = true`), runs both deferred calls and so closes the local and the
remote connection. -/
theorem C9_each_copy_task_closes_both {C : Type} (local_conn remote_conn : C) :
    closed_directly (pipe_connections local_conn remote_conn) = [] ∧
    (started (pipe_connections local_conn remote_conn)).length = 2 ∧
    (∀ body, body ∈ started (pipe_connections local_conn remote_conn) →
      ∀ err : Bool, ∃ dst src,
        run_body body err [] =
          [Action.copy dst src, Action.close local_conn, Action.close remote_conn]) ∧
    (∀ err : Bool,
      (started (pipe_connections local_conn remote_conn)).map (fun body => run_body body err []) =
        [ [Action.copy remote_conn local_conn, Action.close local_conn,
            Action.close remote_conn],
          [Action.copy local_conn remote_conn, Action.close local_conn,
            Action.close remote_conn] ]) := by
  refine ⟨rfl, rfl, ?_, ?_⟩
  · intro body hbody err
    simp only [pipe_connections, started, List.mem_cons, List.mem_singleton,
      List.not_mem_nil, or_false] at hbody
    rcases hbody with rfl | rfl
    · exact ⟨remote_conn, local_conn, by cases err <;> rfl⟩
    · exact ⟨local_conn, remote_conn, by cases err <;> rfl⟩
  · intro err
    cases err <;> rfl

end DispatchProxy
